import Mathlib

/-!
Shallow embedding of the taskflow core covered by this development:
`include/taskflow/core/graph.hpp` (node variants, dependency edges,
join-counter setup, cancellation, exception slot) and
`include/taskflow/algorithm/find.hpp` (the parallel `find_if`,
`find_if_not`, `min_element`, `max_element` task skeletons).
Machine iterators are modelled by indices into an abstract range
`i ↦ f i` of length `N`; node pointers by indices into an environment
`Nat → GNode`.
-/

namespace Tf

/-! ### Node variant indices (graph.hpp, `get_index_v` over `handle_t`) -/

def PLACEHOLDER : Nat := 0

def STATIC : Nat := 1

def SUBFLOW : Nat := 2

def CONDITION : Nat := 3

def MULTI_CONDITION : Nat := 4

def MODULE : Nat := 5

def ASYNC : Nat := 6

def DEPENDENT_ASYNC : Nat := 7

/-- Modelled from the spec: the `NSTATE::CONDITIONED` flag of the node-state
bitfield.  Its numeric value is not part of the covered sources; the spec
describes a flag bit kept apart from the low-bit conditioner count, so it is
taken to be a single high bit. -/
def CONDITIONED : Nat := 2 ^ 28

/-- Modelled from the spec: the `ESTATE::CANCELLED` flag of the execution-state
bitfield.  Its numeric value is not part of the covered sources. -/
def CANCELLED : Nat := 1

/-- A graph node as far as the covered queries need it: the variant index of
its `handle`, edge lists (indices into an environment), the join counter and
the `nstate` bitfield. -/
structure GNode where
  handle : Nat
  successors : List Nat
  dependents : List Nat
  joinCounter : Nat
  nstate : Nat
deriving DecidableEq

/-- Conditioner classification (graph.hpp `Node::_is_conditioner`): the handle
is `Condition` or `MultiCondition`. -/
def isConditioner (n : GNode) : Bool :=
  n.handle == CONDITION || n.handle == MULTI_CONDITION

/-- graph.hpp `Node::num_successors`. -/
def numSuccessors (n : GNode) : Nat := n.successors.length

/-- graph.hpp `Node::num_dependents`. -/
def numDependents (n : GNode) : Nat := n.dependents.length

/-- graph.hpp `Node::num_weak_dependents`: dependents whose node is a
conditioner. -/
def numWeakDependents (env : Nat → GNode) (n : GNode) : Nat :=
  (n.dependents.filter (fun i => isConditioner (env i))).length

/-- graph.hpp `Node::num_strong_dependents`: dependents whose node is not a
conditioner. -/
def numStrongDependents (env : Nat → GNode) (n : GNode) : Nat :=
  (n.dependents.filter (fun i => !isConditioner (env i))).length

/-- One loop iteration of graph.hpp `Node::_set_up_join_counter`: a conditioner
dependent performs `nstate = (nstate + 1) | CONDITIONED`, any other dependent
bumps the strong count. -/
def sujcStep (env : Nat → GNode) (st : Nat × Nat) (i : Nat) : Nat × Nat :=
  if isConditioner (env i) then ((st.1 + 1) ||| CONDITIONED, st.2) else (st.1, st.2 + 1)

/-- graph.hpp `Node::_set_up_join_counter`: fold the loop over the dependents,
then store the strong count into `join_counter`. -/
def setUpJoinCounter (env : Nat → GNode) (n : GNode) : GNode :=
  let st := n.dependents.foldl (sujcStep env) (n.nstate, 0)
  { n with nstate := st.1, joinCounter := st.2 }

/-- A node as far as `_rethrow_exception` touches it: the exception slot (the
stored failure is opaque, modelled by a `Nat` payload) and the rest of the
node. -/
structure ExcNode where
  exceptionPtr : Option Nat
  rest : Nat
deriving DecidableEq

/-- graph.hpp `Node::_rethrow_exception`: when the slot is non-null, clear it
and raise the stored failure (returned as `some e`); otherwise do nothing. -/
def rethrowException (n : ExcNode) : ExcNode × Option Nat :=
  match n.exceptionPtr with
  | some e => ({ n with exceptionPtr := none }, some e)
  | none => (n, none)

/-- A node as far as `_is_cancelled` touches it: the owning topology's estate
(`none` models a null topology pointer), the parent node (`none` models a null
parent), and the node's own estate. -/
inductive CNode : Type where
  | mk : Option Nat → Option CNode → Nat → CNode

def CNode.topologyEstate : CNode → Option Nat
  | .mk t _ _ => t

def CNode.parent : CNode → Option CNode
  | .mk _ p _ => p

def CNode.estate : CNode → Nat
  | .mk _ _ e => e

/-- graph.hpp `Node::_is_cancelled`: the owning topology's estate has the
`CANCELLED` bit, or the immediate parent's estate does. -/
def isCancelled (n : CNode) : Bool :=
  (match n.topologyEstate with
   | some te => te &&& CANCELLED != 0
   | none => false)
  ||
  (match n.parent with
   | some p => p.estate &&& CANCELLED != 0
   | none => false)

/-- A node as far as `_precede` touches it: the two edge lists. -/
structure EdgeNode where
  successors : List Nat
  dependents : List Nat
deriving DecidableEq

/-- graph.hpp `Node::_precede`: append `v` to `u`'s successors and `u` to
`v`'s dependents (both updates on the same node when `u = v`). -/
def precede (g : Nat → EdgeNode) (u v : Nat) : Nat → EdgeNode := fun w =>
  let afterSucc := if w = u then { g w with successors := (g w).successors ++ [v] } else g w
  if w = v then { afterSucc with dependents := afterSucc.dependents ++ [u] } else afterSucc

/-- Nodes start with empty edge lists. -/
def emptyEdges : Nat → EdgeNode := fun _ => { successors := [], dependents := [] }

/-- A sequence of `precede` calls starting from empty edge lists. -/
def buildEdges (calls : List (Nat × Nat)) : Nat → EdgeNode :=
  calls.foldl (fun g uv => precede g uv.1 uv.2) emptyEdges

/-- Concrete three-node scenario of the spec: node 0 (`a`, a Condition node)
and node 1 (`b`, a Static node) precede node 2 (`c`). -/
def scenarioEnv : Nat → GNode := fun i =>
  if i = 0 then { handle := CONDITION, successors := [2], dependents := [], joinCounter := 0, nstate := 0 }
  else if i = 1 then { handle := STATIC, successors := [2], dependents := [], joinCounter := 0, nstate := 0 }
  else { handle := STATIC, successors := [], dependents := [0, 1], joinCounter := 0, nstate := 0 }

/-! ### Parallel algorithm skeletons (find.hpp)

The partitioner, `Runtime` and `NSTATE`/`ESTATE` constants are outside the
covered sources; their semantics is modelled from the spec where noted.
Sub-tasks are serialised in spawn order: the only inter-task state of the
find path is the `atomic_min` offset and of the min/max path the
mutex-protected `result`, and both merge operations are order-insensitive for
the properties proved here. -/

/-- Partitioner type (spec: only Static and Dynamic semantics are fixed). -/
inductive PType : Type where
  | pstatic
  | pdynamic
deriving DecidableEq

/-- Modelled from the spec: `StaticPartitioner::adjusted_chunk_size(N, W, w)`,
a deterministic split whose sum over `w < W` covers `[0, N)`: the even split. -/
def adj (N W w : Nat) : Nat := N / W + (if w < N % W then 1 else 0)

/-- Partial sums of the static chunk sizes. -/
def adjSum (Np W : Nat) : Nat → Nat
  | 0 => 0
  | k+1 => adjSum Np W k + adj Np W k

/-- The static spawning loop of find.hpp
(`for(w=0, curr_b=0; w<W && curr_b<N;)`): emit one task per worker with its
slice `[curr_b, curr_b + cf w)`; the task runs inline (flag `true`) when
`++w == W` or the advanced `curr_b` reaches `Np`, which also ends the loop;
otherwise it is submitted via `silent_async` (flag `false`). -/
def spawnSim (Np W : Nat) (cf : Nat → Nat) : Nat → Nat → Nat → List (Nat × Nat × Bool)
  | 0, _, _ => []
  | fuel+1, w, b =>
    if w < W ∧ b < Np then
      (if w + 1 = W ∨ Np ≤ b + cf w then [(b, cf w, true)]
       else (b, cf w, false) :: spawnSim Np W cf fuel (w+1) (b + cf w))
    else []

def countInline (l : List (Nat × Nat × Bool)) : Nat := (l.filter (fun t => t.2.2)).length

def countAsync (l : List (Nat × Nat × Bool)) : Nat := (l.filter (fun t => !t.2.2)).length

/-- The dynamic spawning loop of find.hpp (`for(w=0; w<W;)`): the `W`-th task
runs inline, every earlier one goes through `silent_async`. -/
def dynSpawnFlags (W : Nat) : Nat → Nat → List Bool
  | 0, _ => []
  | fuel+1, w => if w < W then (w + 1 == W) :: dynSpawnFlags W fuel (w+1) else []

def countInlineB (l : List Bool) : Nat := (l.filter id).length

def countAsyncB (l : List Bool) : Nat := (l.filter (fun x => !x)).length

/-- The scanning loop inside find.hpp `detail::find_if_loop`: the first index
in `[lo, lo+k)` satisfying `q`, if any. -/
def scanFirstAux (q : Nat → Bool) : Nat → Nat → Option Nat
  | 0, _ => none
  | k+1, lo => if q lo then some lo else scanFirstAux q k (lo+1)

/-- Serial `std::find_if` on the index range `[0, N)`: the first index
satisfying `q`, or `N`. -/
def findIfIdx (q : Nat → Bool) (N : Nat) : Nat := (scanFirstAux q N 0).getD N

/-- Serial `std::find_if_not`. -/
def findIfNotIdx (p : Nat → Bool) (N : Nat) : Nat := findIfIdx (fun i => !p i) N

/-- find.hpp `detail::find_if_loop` on one chunk, acting on the shared atomic
`offset`: prune when `offset < curr_b` (a peer already found a smaller
index), otherwise scan the chunk and `atomic_min` the first hit into
`offset`. -/
def findChunkStep (q : Nat → Bool) (Np : Nat) (off : Nat) (ch : Nat × Nat × Bool) : Nat :=
  if off < ch.1 then off
  else
    match scanFirstAux q (min (ch.1 + ch.2.1) Np - ch.1) ch.1 with
    | some x => min off x
    | none => off

/-- One worker of the dynamic find path (`loop_until` with the shared
cursor): claim chunks of size `c` until the range is exhausted or the body
returns true (prune or hit). -/
def findDynWorker (q : Nat → Bool) (N c : Nat) : Nat → Nat × Nat → Nat × Nat
  | 0, st => st
  | fuel+1, st =>
    if st.1 < N then
      (if st.2 < st.1 then (st.1 + c, st.2)
       else
         match scanFirstAux q (min (st.1 + c) N - st.1) st.1 with
         | some x => (st.1 + c, min st.2 x)
         | none => findDynWorker q N c fuel (st.1 + c, st.2))
    else st

/-- Iterate a worker body over the worker count. -/
def iterWorkers {σ : Type} (g : σ → σ) : Nat → σ → σ
  | 0, st => st
  | k+1, st => iterWorkers g k (g st)

/-- Execution trace of one algorithm task: the index finally stored into
`result`, how many sub-tasks went through `silent_async`, how many task
bodies ran inline, how many shares of the shared termination state were
released (one per executed task body), and whether a `PreemptionGuard` was
installed. -/
structure TaskTrace where
  resultIdx : Nat
  numAsync : Nat
  numInline : Nat
  numReleases : Nat
  guard : Bool
deriving DecidableEq

/-- find.hpp `make_find_if_task` (partitioner semantics modelled from the
spec): serial fallback when `W ≤ 1` or `N ≤ chunk_size`; otherwise install
the preemption guard, clamp `W ← min(W, N)`, initialise the shared offset to
`N`, run the spawn loop of the chosen partitioner, and let the shared-handle
finaliser store `result = next(first, offset)`. -/
def findEngine (q : Nat → Bool) (N W chunkSz : Nat) (pt : PType) : TaskTrace :=
  if W ≤ 1 ∨ N ≤ chunkSz then
    { resultIdx := findIfIdx q N, numAsync := 0, numInline := 0, numReleases := 0, guard := false }
  else
    let Wc := min W N
    match pt with
    | PType.pstatic =>
      let chunks := spawnSim N Wc (adj N Wc) Wc 0 0
      { resultIdx := chunks.foldl (findChunkStep q N) N,
        numAsync := countAsync chunks, numInline := countInline chunks,
        numReleases := chunks.length, guard := true }
    | PType.pdynamic =>
      let c := max 1 chunkSz
      let flags := dynSpawnFlags Wc Wc 0
      { resultIdx := (iterWorkers (fun st => findDynWorker q N c N st) Wc (0, N)).2,
        numAsync := countAsyncB flags, numInline := countInlineB flags,
        numReleases := flags.length, guard := true }

/-- find.hpp `make_find_if_task` on the range `i ↦ p i` of length `N`. -/
def findIfTask (p : Nat → Bool) (N W chunkSz : Nat) (pt : PType) : TaskTrace :=
  findEngine p N W chunkSz pt

/-- find.hpp `make_find_if_not_task`: `detail::find_if_not_loop` is
`find_if_loop` with the test `!predicate(*beg++)`, and the serial fallback
runs `std::find_if_not`. -/
def findIfNotTask (p : Nat → Bool) (N W chunkSz : Nat) (pt : PType) : TaskTrace :=
  findEngine (fun i => !p i) N W chunkSz pt

/-- The local reduction loop shared by the min/max skeletons: scan original
indices `[lo, lo+k)`, replacing the incumbent `s` by the candidate whenever
the candidate beats it under `lt` (for `min_element` `lt` is `comp`; for
`max_element` the update test `comp(*largest, *beg)` is `comp` flipped). -/
def oscanAux {α : Type} (f : Nat → α) (lt : α → α → Bool) : Nat → Nat → Nat → Nat
  | 0, _, s => s
  | k+1, lo, s => oscanAux f lt k (lo+1) (if lt (f lo) (f s) then lo else s)

/-- Serial `std::min_element` on `[0, N)`: start from index 0 and scan,
keeping the leftmost strictly-smallest element. -/
def minElIdx {α : Type} (f : Nat → α) (comp : α → α → Bool) (N : Nat) : Nat :=
  oscanAux f comp (N - 1) 1 0

/-- Serial `std::max_element` on `[0, N)`. -/
def maxElIdx {α : Type} (f : Nat → α) (comp : α → α → Bool) (N : Nat) : Nat :=
  oscanAux f (fun x y => comp y x) (N - 1) 1 0

/-- One worker body of the static min/max path: its slice is
`[b, b + k)` in the coordinates of the decremented range (original index
`x + 1`).  A single-element tail merges directly under the mutex; otherwise
the local extremum is seeded from the slice's first two elements, the chunk
loop reduces the rest of the slice, and one merge happens under the mutex. -/
def mmStaticStep {α : Type} (f : Nat → α) (lt : α → α → Bool) (seed : Nat → Nat → Nat)
    (Np : Nat) (res : Nat) (ch : Nat × Nat × Bool) : Nat :=
  if Np - ch.1 = 1 then (if lt (f (ch.1 + 1)) (f res) then ch.1 + 1 else res)
  else
    let e := min (ch.1 + ch.2.1) Np
    let s0 := seed (ch.1 + 1) (ch.1 + 2)
    let loc := oscanAux f lt (e + 1 - (ch.1 + 3)) (ch.1 + 3) s0
    if lt (f loc) (f res) then loc else res

/-- The chunk-claiming loop of the dynamic min/max path (`part.loop` on the
shared cursor): claim chunks of size `c` and reduce them into the local
extremum. -/
def mmDynScan {α : Type} (f : Nat → α) (lt : α → α → Bool) (Np c : Nat) :
    Nat → Nat → Nat → Nat × Nat
  | 0, cur, s => (cur, s)
  | fuel+1, cur, s =>
    if cur < Np then
      mmDynScan f lt Np c fuel (cur + c) (oscanAux f lt (min (cur + c) Np - cur) (cur + 1) s)
    else (cur, s)

/-- One worker of the dynamic min/max path: pre-claim two positions
(`s0 = next.fetch_add(2)`), return if exhausted, merge a single-element tail
under the mutex, otherwise seed from the two claimed elements, run the
claiming loop, and merge once under the mutex. -/
def mmDynWorker {α : Type} (f : Nat → α) (lt : α → α → Bool) (seed : Nat → Nat → Nat)
    (Np c : Nat) (st : Nat × Nat) : Nat × Nat :=
  if Np ≤ st.1 then (st.1 + 2, st.2)
  else if Np - st.1 = 1 then
    (st.1 + 2, if lt (f (st.1 + 1)) (f st.2) then st.1 + 1 else st.2)
  else
    let pr := mmDynScan f lt Np c Np (st.1 + 2) (seed (st.1 + 1) (st.1 + 2))
    (pr.1, if lt (f pr.2) (f st.2) then pr.2 else st.2)

/-- Shared skeleton of find.hpp `make_min_element_task` and
`make_max_element_task` (partitioner semantics modelled from the spec):
serial fallback, else preemption guard, clamp `W ← min(W, N)`, store the
first element into `result`, decrement `N`, run the spawn loop of the chosen
partitioner with chunk sizes floored at 2 on the static path, and merge each
worker's local extremum into `result` under the mutex. -/
def mmEngine {α : Type} (f : Nat → α) (lt : α → α → Bool) (seed : Nat → Nat → Nat)
    (serialIdx : Nat) (N W chunkSz : Nat) (pt : PType) : TaskTrace :=
  if W ≤ 1 ∨ N ≤ chunkSz then
    { resultIdx := serialIdx, numAsync := 0, numInline := 0, numReleases := 0, guard := false }
  else
    let Wc := min W N
    let Np := N - 1
    match pt with
    | PType.pstatic =>
      let chunks := spawnSim Np Wc (fun w => max 2 (adj Np Wc w)) Wc 0 0
      { resultIdx := chunks.foldl (mmStaticStep f lt seed Np) 0,
        numAsync := countAsync chunks, numInline := countInline chunks,
        numReleases := chunks.length, guard := true }
    | PType.pdynamic =>
      let c := max 1 chunkSz
      let flags := dynSpawnFlags Wc Wc 0
      { resultIdx := (iterWorkers (mmDynWorker f lt seed Np c) Wc (0, 0)).2,
        numAsync := countAsyncB flags, numInline := countInlineB flags,
        numReleases := flags.length, guard := true }

/-- find.hpp `make_min_element_task`: the update test is
`comp(candidate, incumbent)` and the two-element seed is
`comp(*beg1, *beg2) ? beg1 : beg2`. -/
def minTask {α : Type} (f : Nat → α) (comp : α → α → Bool) (N W chunkSz : Nat)
    (pt : PType) : TaskTrace :=
  mmEngine f comp (fun a b => if comp (f a) (f b) then a else b) (minElIdx f comp N) N W chunkSz pt

/-- find.hpp `make_max_element_task`: the update test is
`comp(incumbent, candidate)` and the two-element seed is
`comp(*beg1, *beg2) ? beg2 : beg1`. -/
def maxTask {α : Type} (f : Nat → α) (comp : α → α → Bool) (N W chunkSz : Nat)
    (pt : PType) : TaskTrace :=
  mmEngine f (fun x y => comp y x) (fun a b => if comp (f a) (f b) then b else a)
    (maxElIdx f comp N) N W chunkSz pt

/-- A strict weak order given as a boolean comparator: irreflexive,
transitive, and every comparison splits across any third element (the
standard equivalent of transitivity of incomparability). -/
def IsSWO {α : Type} (comp : α → α → Bool) : Prop :=
  (∀ a, comp a a = false) ∧
  (∀ a b c, comp a b = true → comp b c = true → comp a c = true) ∧
  (∀ a b c, comp a b = true → comp a c = true ∨ comp c b = true)

/-- Concrete sample range for the witnesses. -/
def sampleF : Nat → Nat := fun i => [5, 3, 9, 1, 4, 1, 7].getD i 0

/-- Boolean `<` on `Nat`, the concrete comparator of the witnesses. -/
def natLt : Nat → Nat → Bool := fun a b => decide (a < b)

/-! ### Helper lemmas about the node model -/

theorem le_or_self (a b : Nat) : a ≤ a ||| b :=
  Nat.le_of_testBit (by intro i h; simp [Nat.testBit_lor, h])

theorem or_conditioned_bit (x : Nat) : (x ||| CONDITIONED).testBit 28 = true := by
  rw [Nat.testBit_lor]
  have h : CONDITIONED.testBit 28 = true := by
    unfold CONDITIONED
    exact Nat.testBit_two_pow_self
  simp [h]

theorem and_conditioned_ne_zero (x : Nat) : x &&& CONDITIONED ≠ 0 ↔ x.testBit 28 = true := by
  unfold CONDITIONED
  rw [Nat.and_two_pow]
  cases h : x.testBit 28 <;> simp [h]

theorem length_filter_split {β : Type} (l : List β) (q : β → Bool) :
    (l.filter q).length + (l.filter (fun i => !q i)).length = l.length := by
  induction l with
  | nil => rfl
  | cons a t ih =>
    by_cases h : q a = true <;> simp [List.filter_cons, h] <;> omega

theorem sujc_snd (env : Nat → GNode) (l : List Nat) : ∀ st : Nat × Nat,
    (l.foldl (sujcStep env) st).2 = st.2 + (l.filter (fun i => !isConditioner (env i))).length := by
  induction l with
  | nil => intro st; simp
  | cons a t ih =>
    intro st
    by_cases h : isConditioner (env a) = true <;>
      simp [List.foldl_cons, sujcStep, h, ih, List.filter_cons] <;> omega

theorem sujc_fst_nocond (env : Nat → GNode) (l : List Nat)
    (h : ∀ i ∈ l, isConditioner (env i) = false) : ∀ st : Nat × Nat,
    (l.foldl (sujcStep env) st).1 = st.1 := by
  induction l with
  | nil => intro st; rfl
  | cons a t ih =>
    intro st
    have ha : isConditioner (env a) = false := h a (List.mem_cons_self a t)
    rw [List.foldl_cons]
    rw [ih (fun i hi => h i (List.mem_cons_of_mem a hi))]
    simp [sujcStep, ha]

theorem sujc_fst_ge (env : Nat → GNode) (l : List Nat) : ∀ st : Nat × Nat,
    st.1 ≤ (l.foldl (sujcStep env) st).1 := by
  induction l with
  | nil => intro st; exact Nat.le_refl _
  | cons a t ih =>
    intro st
    rw [List.foldl_cons]
    refine Nat.le_trans ?_ (ih (sujcStep env st a))
    by_cases h : isConditioner (env a) = true
    · simp only [sujcStep, h, if_pos]
      exact Nat.le_trans (Nat.le_succ _) (le_or_self _ _)
    · simp [sujcStep, h]

theorem sujc_fst_bit_mono (env : Nat → GNode) (l : List Nat) : ∀ st : Nat × Nat,
    st.1.testBit 28 = true → ((l.foldl (sujcStep env) st).1).testBit 28 = true := by
  induction l with
  | nil => intro st h; exact h
  | cons a t ih =>
    intro st h
    rw [List.foldl_cons]
    refine ih _ ?_
    by_cases hc : isConditioner (env a) = true
    · have hs : (sujcStep env st a).1 = (st.1 + 1) ||| CONDITIONED := by simp [sujcStep, hc]
      rw [hs]
      exact or_conditioned_bit _
    · simpa [sujcStep, hc] using h

theorem sujc_fst_bit_of_cond (env : Nat → GNode) (l : List Nat)
    (h : ∃ i ∈ l, isConditioner (env i) = true) : ∀ st : Nat × Nat,
    ((l.foldl (sujcStep env) st).1).testBit 28 = true := by
  induction l with
  | nil => rcases h with ⟨i, hi, _⟩; cases hi
  | cons a t ih =>
    intro st
    rw [List.foldl_cons]
    by_cases hc : isConditioner (env a) = true
    · refine sujc_fst_bit_mono env t _ ?_
      have hs : (sujcStep env st a).1 = (st.1 + 1) ||| CONDITIONED := by simp [sujcStep, hc]
      rw [hs]
      exact or_conditioned_bit _
    · rcases h with ⟨i, hi, hcond⟩
      rcases List.mem_cons.mp hi with rfl | hit
      · exact absurd hcond hc
      · exact ih ⟨i, hit, hcond⟩ _

theorem sujc_fst_strict (env : Nat → GNode) (l : List Nat)
    (h : ∃ i ∈ l, isConditioner (env i) = true) : ∀ st : Nat × Nat,
    st.1 < (l.foldl (sujcStep env) st).1 := by
  induction l with
  | nil => rcases h with ⟨i, hi, _⟩; cases hi
  | cons a t ih =>
    intro st
    rw [List.foldl_cons]
    by_cases hc : isConditioner (env a) = true
    · refine Nat.lt_of_lt_of_le ?_ (sujc_fst_ge env t _)
      simp only [sujcStep, hc, if_pos]
      exact Nat.lt_of_lt_of_le (Nat.lt_succ_self _) (le_or_self _ _)
    · rcases h with ⟨i, hi, hcond⟩
      rcases List.mem_cons.mp hi with rfl | hit
      · exact absurd hcond hc
      · have := ih ⟨i, hit, hcond⟩ (sujcStep env st a)
        simpa [sujcStep, hc] using this

theorem setUpJoinCounter_nstate (env : Nat → GNode) (n : GNode) :
    (setUpJoinCounter env n).nstate = (n.dependents.foldl (sujcStep env) (n.nstate, 0)).1 := rfl

theorem setUpJoinCounter_joinCounter (env : Nat → GNode) (n : GNode) :
    (setUpJoinCounter env n).joinCounter = (n.dependents.foldl (sujcStep env) (n.nstate, 0)).2 := rfl

theorem setUpJoinCounter_dependents (env : Nat → GNode) (n : GNode) :
    (setUpJoinCounter env n).dependents = n.dependents := rfl

theorem weak_pos_iff (env : Nat → GNode) (n : GNode) :
    0 < numWeakDependents env n ↔ ∃ i ∈ n.dependents, isConditioner (env i) = true := by
  unfold numWeakDependents
  rw [List.length_pos_iff_exists_mem]
  constructor
  · rintro ⟨a, ha⟩
    exact ⟨a, (List.mem_filter.mp ha).1, (List.mem_filter.mp ha).2⟩
  · rintro ⟨i, hi, hc⟩
    exact ⟨i, List.mem_filter.mpr ⟨hi, hc⟩⟩

theorem precede_succ (g : Nat → EdgeNode) (a b w : Nat) :
    ((precede g a b) w).successors =
      if w = a then (g w).successors ++ [b] else (g w).successors := by
  unfold precede
  by_cases h1 : w = a
  · subst h1
    by_cases h2 : w = b
    · subst h2
      simp
    · simp [h2]
  · by_cases h2 : w = b
    · subst h2
      simp [h1]
    · simp [h1, h2]

theorem precede_dep (g : Nat → EdgeNode) (a b w : Nat) :
    ((precede g a b) w).dependents =
      if w = b then (g w).dependents ++ [a] else (g w).dependents := by
  unfold precede
  by_cases h1 : w = a
  · subst h1
    by_cases h2 : w = b
    · subst h2
      simp
    · simp [h2]
  · by_cases h2 : w = b
    · subst h2
      simp [h1]
    · simp [h1, h2]

theorem precede_mirror (g : Nat → EdgeNode)
    (hm : ∀ u v, (g u).successors.count v = (g v).dependents.count u) (a b : Nat) :
    ∀ u v, ((precede g a b) u).successors.count v = ((precede g a b) v).dependents.count u := by
  intro u v
  rw [precede_succ, precede_dep]
  by_cases hu : u = a
  · subst hu
    by_cases hv : v = b
    · subst hv
      simp [List.count_append, hm u v]
    · simp [hv, List.count_append, hm u v]
  · by_cases hv : v = b
    · subst hv
      simp [hu, List.count_append, hm u v]
    · simp [hu, hv, hm u v]

/-! ### C3, C4, C5, C8, C9, C10 -/

/-- C3: after `_set_up_join_counter`, the join counter equals the number of
strong dependents, and the `CONDITIONED` bit is set in `nstate` iff the node
has at least one weak (conditioner) dependent; in the concrete scenario with a
Condition node `a` and a Static node `b` both preceding `c`, the counter is 1,
`CONDITIONED` is set, and `c` has one weak and one strong dependent. -/
theorem C3_join_counter_setup (env : Nat → GNode) (n : GNode)
    (h : n.nstate &&& CONDITIONED = 0) :
    (setUpJoinCounter env n).joinCounter = numStrongDependents env n ∧
    ((setUpJoinCounter env n).nstate &&& CONDITIONED ≠ 0 ↔ 0 < numWeakDependents env n) ∧
    ((setUpJoinCounter scenarioEnv (scenarioEnv 2)).joinCounter = 1 ∧
     (setUpJoinCounter scenarioEnv (scenarioEnv 2)).nstate &&& CONDITIONED ≠ 0 ∧
     numWeakDependents scenarioEnv (scenarioEnv 2) = 1 ∧
     numStrongDependents scenarioEnv (scenarioEnv 2) = 1) := by
  refine ⟨?_, ?_, by decide⟩
  · rw [setUpJoinCounter_joinCounter, sujc_snd]
    simp [numStrongDependents]
  · rw [setUpJoinCounter_nstate, and_conditioned_ne_zero, weak_pos_iff]
    constructor
    · intro hb
      by_contra hno
      push_neg at hno
      have hnone : ∀ i ∈ n.dependents, isConditioner (env i) = false := by
        intro i hi
        cases hc : isConditioner (env i)
        · rfl
        · exact absurd hc (hno i hi)
      rw [sujc_fst_nocond env n.dependents hnone] at hb
      have : n.nstate &&& CONDITIONED ≠ 0 := (and_conditioned_ne_zero _).mpr hb
      exact this h
    · intro hex
      exact sujc_fst_bit_of_cond env n.dependents hex _

/-- Witness for C3 at the concrete scenario node. -/
theorem C3_join_counter_setup_witness :
    (scenarioEnv 2).nstate &&& CONDITIONED = 0 ∧
    ((setUpJoinCounter scenarioEnv (scenarioEnv 2)).joinCounter =
        numStrongDependents scenarioEnv (scenarioEnv 2) ∧
     ((setUpJoinCounter scenarioEnv (scenarioEnv 2)).nstate &&& CONDITIONED ≠ 0 ↔
        0 < numWeakDependents scenarioEnv (scenarioEnv 2)) ∧
     ((setUpJoinCounter scenarioEnv (scenarioEnv 2)).joinCounter = 1 ∧
      (setUpJoinCounter scenarioEnv (scenarioEnv 2)).nstate &&& CONDITIONED ≠ 0 ∧
      numWeakDependents scenarioEnv (scenarioEnv 2) = 1 ∧
      numStrongDependents scenarioEnv (scenarioEnv 2) = 1)) :=
  ⟨by decide, C3_join_counter_setup scenarioEnv (scenarioEnv 2) (by decide)⟩

/-- C4: starting from empty edge lists, after any sequence of `precede`
calls, `v` occurs in `u.successors` exactly as often as `u` occurs in
`v.dependents`. -/
theorem C4_edge_mirroring (calls : List (Nat × Nat)) (u v : Nat) :
    (buildEdges calls u).successors.count v = (buildEdges calls v).dependents.count u := by
  suffices h : ∀ (cs : List (Nat × Nat)) (g : Nat → EdgeNode),
      (∀ u v, (g u).successors.count v = (g v).dependents.count u) →
      ∀ u v, ((cs.foldl (fun g uv => precede g uv.1 uv.2) g) u).successors.count v =
        ((cs.foldl (fun g uv => precede g uv.1 uv.2) g) v).dependents.count u by
    exact h calls emptyEdges (by intro u v; simp [emptyEdges]) u v
  intro cs
  induction cs with
  | nil => intro g hg; exact hg
  | cons c t ih =>
    intro g hg
    exact ih (precede g c.1 c.2) (precede_mirror g hg c.1 c.2)

/-- C5: the strong and weak dependent counts partition the dependents list:
their sum is the total number of dependents. -/
theorem C5_strong_weak_partition (env : Nat → GNode) (n : GNode) :
    numStrongDependents env n + numWeakDependents env n = numDependents n := by
  unfold numStrongDependents numWeakDependents numDependents
  rw [Nat.add_comm]
  exact length_filter_split n.dependents (fun i => isConditioner (env i))

/-- C8: `_rethrow_exception` with a non-null slot clears the slot and raises
the stored failure exactly once (a second call raises nothing); with a null
slot it raises nothing and leaves the node unchanged. -/
theorem C8_rethrow_exception (n : ExcNode) :
    (∀ e, n.exceptionPtr = some e →
        rethrowException n = ({ n with exceptionPtr := none }, some e) ∧
        rethrowException (rethrowException n).1 = ((rethrowException n).1, none)) ∧
    (n.exceptionPtr = none → rethrowException n = (n, none)) := by
  obtain ⟨ptr, r⟩ := n
  cases ptr with
  | none =>
    constructor
    · intro e he; cases he
    · intro _; rfl
  | some e0 =>
    constructor
    · intro e he
      cases he
      exact ⟨rfl, rfl⟩
    · intro he; cases he

/-- Witness for C8 at a node holding failure 7. -/
theorem C8_rethrow_exception_witness :
    rethrowException ⟨some 7, 3⟩ = (⟨none, 3⟩, some 7) ∧
    rethrowException (rethrowException ⟨some 7, 3⟩).1 = ((rethrowException ⟨some 7, 3⟩).1, none) :=
  (C8_rethrow_exception ⟨some 7, 3⟩).1 7 rfl

/-- C9: `_is_cancelled` is true exactly when the owning topology's estate has
the `CANCELLED` bit or the immediate parent's estate does; a `CANCELLED` bit
on a grandparent alone does not make it true. -/
theorem C9_is_cancelled (n : CNode) :
    (isCancelled n = true ↔
      ((∃ te, n.topologyEstate = some te ∧ te &&& CANCELLED ≠ 0) ∨
       (∃ p, n.parent = some p ∧ p.estate &&& CANCELLED ≠ 0))) ∧
    isCancelled (.mk none (some (.mk none (some (.mk none none CANCELLED)) 0)) 0) = false := by
  refine ⟨?_, by decide⟩
  obtain ⟨t, p, e⟩ := n
  cases t <;> cases p <;>
    simp [isCancelled, CNode.topologyEstate, CNode.parent, CNode.estate, bne_iff_ne]

/-- C10: `_set_up_join_counter` is not idempotent on `nstate`: with at least
one conditioner dependent each call strictly increases `nstate` (the encoded
conditioner count accumulates), while `join_counter` is overwritten with the
same absolute value on every call. -/
theorem C10_setup_not_idempotent (env : Nat → GNode) (n : GNode)
    (h : 0 < numWeakDependents env n) :
    n.nstate < (setUpJoinCounter env n).nstate ∧
    (setUpJoinCounter env n).nstate < (setUpJoinCounter env (setUpJoinCounter env n)).nstate ∧
    (setUpJoinCounter env (setUpJoinCounter env n)).joinCounter =
      (setUpJoinCounter env n).joinCounter := by
  have hex : ∃ i ∈ n.dependents, isConditioner (env i) = true := (weak_pos_iff env n).mp h
  refine ⟨?_, ?_, ?_⟩
  · rw [setUpJoinCounter_nstate]
    exact sujc_fst_strict env n.dependents hex (n.nstate, 0)
  · rw [setUpJoinCounter_nstate env (setUpJoinCounter env n), setUpJoinCounter_dependents]
    exact sujc_fst_strict env n.dependents hex ((setUpJoinCounter env n).nstate, 0)
  · rw [setUpJoinCounter_joinCounter env (setUpJoinCounter env n),
      setUpJoinCounter_joinCounter env n, setUpJoinCounter_dependents, sujc_snd, sujc_snd]

/-! ### Chunk arithmetic of the spec-modelled static partitioner -/

theorem adj_pos (N W w : Nat) (hW : 1 ≤ W) (hWN : W ≤ N) : 1 ≤ adj N W w := by
  unfold adj
  have h : 1 ≤ N / W := (Nat.one_le_div_iff hW).mpr hWN
  omega

theorem adjSum_eq (N W : Nat) : ∀ k, adjSum N W k = k * (N / W) + min k (N % W) := by
  intro k
  induction k with
  | zero => simp [adjSum]
  | succ k ih =>
    show adjSum N W k + adj N W k = _
    rw [ih]
    unfold adj
    rcases Nat.lt_or_ge k (N % W) with h | h
    · simp only [if_pos h]
      have h1 : min k (N % W) = k := by omega
      have h2 : min (k + 1) (N % W) = k + 1 := by omega
      rw [h1, h2, Nat.succ_mul]
      omega
    · simp only [if_neg (by omega : ¬ k < N % W)]
      have h1 : min k (N % W) = N % W := by omega
      have h2 : min (k + 1) (N % W) = N % W := by omega
      rw [h1, h2, Nat.succ_mul]
      omega

theorem adjSum_full (N W : Nat) (hW : 1 ≤ W) : adjSum N W W = N := by
  rw [adjSum_eq]
  have hmod : N % W < W := Nat.mod_lt _ hW
  have hmin : min W (N % W) = N % W := by omega
  rw [hmin]
  have := Nat.div_add_mod N W
  omega

theorem adjSum_succ (N W k : Nat) : adjSum N W (k + 1) = adjSum N W k + adj N W k := rfl

theorem adjSum_lt (N W w : Nat) (hW : 1 ≤ W) (hWN : W ≤ N) (hw : w < W) :
    adjSum N W w < N := by
  rw [adjSum_eq]
  have hq : 1 ≤ N / W := (Nat.one_le_div_iff hW).mpr hWN
  have h1 : (w + 1) * (N / W) ≤ W * (N / W) := Nat.mul_le_mul_right _ (by omega)
  rw [Nat.succ_mul] at h1
  have h2 : min w (N % W) ≤ N % W := Nat.min_le_right _ _
  have h3 : W * (N / W) + N % W = N := Nat.div_add_mod N W
  omega

/-! ### Spawn-loop counting -/

theorem countAsync_cons_false (b k : Nat) (l : List (Nat × Nat × Bool)) :
    countAsync ((b, k, false) :: l) = 1 + countAsync l := by
  simp [countAsync, List.filter_cons]
  omega

theorem countInline_cons_false (b k : Nat) (l : List (Nat × Nat × Bool)) :
    countInline ((b, k, false) :: l) = countInline l := by
  simp [countInline, List.filter_cons]

theorem spawnSim_counts_exact (N W : Nat) (hW : 1 ≤ W) (hWN : W ≤ N) :
    ∀ fuel w b, W - w ≤ fuel → w < W → b = adjSum N W w →
      countAsync (spawnSim N W (adj N W) fuel w b) = W - w - 1 ∧
      countInline (spawnSim N W (adj N W) fuel w b) = 1 := by
  intro fuel
  induction fuel with
  | zero => intro w b hf hw _; omega
  | succ fuel ih =>
    intro w b hf hw hb
    have hbN : b < N := hb ▸ adjSum_lt N W w hW hWN hw
    rw [spawnSim, if_pos ⟨hw, hbN⟩]
    by_cases hend : w + 1 = W ∨ N ≤ b + adj N W w
    · rw [if_pos hend]
      have hw1 : w + 1 = W := by
        rcases hend with h | h
        · exact h
        · rcases Nat.lt_or_ge (w + 1) W with hlt | hge
          · exfalso
            have : b + adj N W w < N := by
              rw [hb, ← adjSum_succ]
              exact adjSum_lt N W (w + 1) hW hWN hlt
            omega
          · omega
      constructor
      · simp [countAsync]
        omega
      · simp [countInline]
    · rw [if_neg hend]
      push_neg at hend
      obtain ⟨hw1, hlt⟩ := hend
      have hw1' : w + 1 < W := by omega
      have ih' := ih (w + 1) (b + adj N W w) (by omega) hw1' (by rw [hb, ← adjSum_succ])
      rw [countAsync_cons_false, countInline_cons_false]
      omega

theorem countAsyncB_cons (x : Bool) (l : List Bool) :
    countAsyncB (x :: l) = (if x then 0 else 1) + countAsyncB l := by
  cases x <;> simp [countAsyncB, List.filter_cons] <;> omega

theorem countInlineB_cons (x : Bool) (l : List Bool) :
    countInlineB (x :: l) = (if x then 1 else 0) + countInlineB l := by
  cases x <;> simp [countInlineB, List.filter_cons, id] <;> omega

theorem dynSpawnFlags_counts (W : Nat) :
    ∀ fuel w, W - w ≤ fuel → w < W →
      countAsyncB (dynSpawnFlags W fuel w) = W - w - 1 ∧
      countInlineB (dynSpawnFlags W fuel w) = 1 := by
  intro fuel
  induction fuel with
  | zero => intro w hf hw; omega
  | succ fuel ih =>
    intro w hf hw
    rw [dynSpawnFlags, if_pos hw]
    by_cases hend : w + 1 = W
    · have hstop : dynSpawnFlags W fuel (w + 1) = [] := by
        cases fuel with
        | zero => rfl
        | succ fuel => rw [dynSpawnFlags, if_neg (by omega)]
      rw [hstop]
      have hbeq : (w + 1 == W) = true := by simp [hend]
      rw [hbeq, countAsyncB_cons, countInlineB_cons]
      simp [countAsyncB, countInlineB]
      omega
    · have hbeq : (w + 1 == W) = false := by simp [hend]
      have ih' := ih (w + 1) (by omega) (by omega)
      rw [hbeq, countAsyncB_cons, countInlineB_cons]
      simp only [if_neg Bool.false_ne_true]
      omega

theorem spawnSim_shape (Np W : Nat) (cf : Nat → Nat) :
    ∀ fuel w b, W - w ≤ fuel →
      countInline (spawnSim Np W cf fuel w b) = (if w < W ∧ b < Np then 1 else 0) ∧
      (spawnSim Np W cf fuel w b).length ≤ W - w := by
  intro fuel
  induction fuel with
  | zero =>
    intro w b hf
    have hw : ¬ w < W := by omega
    constructor
    · show countInline [] = _
      simp [countInline, hw]
    · show ([] : List (Nat × Nat × Bool)).length ≤ W - w
      simp
  | succ fuel ih =>
    intro w b hf
    by_cases hc : w < W ∧ b < Np
    · rw [spawnSim, if_pos hc]
      by_cases hend : w + 1 = W ∨ Np ≤ b + cf w
      · rw [if_pos hend]
        constructor
        · simp [countInline, hc]
        · simp
          omega
      · rw [if_neg hend]
        push_neg at hend
        have ih' := ih (w + 1) (b + cf w) (by omega)
        have hcond : (w + 1 < W ∧ b + cf w < Np) := ⟨by omega, by omega⟩
        rw [countInline_cons_false]
        constructor
        · rw [ih'.1, if_pos hcond, if_pos hc]
        · simp only [List.length_cons]
          omega
    · rw [spawnSim, if_neg hc]
      constructor
      · simp [countInline, hc]
      · simp

theorem countB_split (l : List Bool) : countAsyncB l + countInlineB l = l.length := by
  induction l with
  | nil => rfl
  | cons x t ih => cases x <;> rw [countAsyncB_cons, countInlineB_cons] <;> simp <;> omega

theorem count_split (l : List (Nat × Nat × Bool)) : countAsync l + countInline l = l.length := by
  have h := length_filter_split l (fun t => t.2.2)
  unfold countAsync countInline
  omega

/-! ### Serial scan characterisation -/

theorem scanFirstAux_some (q : Nat → Bool) :
    ∀ k lo x, scanFirstAux q k lo = some x →
      lo ≤ x ∧ x < lo + k ∧ q x = true ∧ ∀ y, lo ≤ y → y < x → q y = false := by
  intro k
  induction k with
  | zero => intro lo x h; cases h
  | succ k ih =>
    intro lo x h
    rw [scanFirstAux] at h
    by_cases hq : q lo = true
    · rw [if_pos hq] at h
      cases h
      exact ⟨Nat.le_refl _, by omega, hq, fun y hy1 hy2 => by omega⟩
    · rw [if_neg hq] at h
      obtain ⟨h1, h2, h3, h4⟩ := ih (lo + 1) x h
      refine ⟨by omega, by omega, h3, ?_⟩
      intro y hy1 hy2
      rcases Nat.eq_or_lt_of_le hy1 with rfl | hgt
      · exact Bool.eq_false_iff.mpr hq
      · exact h4 y (by omega) hy2

theorem scanFirstAux_eq_none (q : Nat → Bool) :
    ∀ k lo, (∀ y, lo ≤ y → y < lo + k → q y = false) → scanFirstAux q k lo = none := by
  intro k
  induction k with
  | zero => intro lo _; rfl
  | succ k ih =>
    intro lo h
    rw [scanFirstAux]
    rw [if_neg (by simp [h lo (Nat.le_refl _) (by omega)])]
    exact ih (lo + 1) (fun y h1 h2 => h y (by omega) (by omega))

theorem scanFirstAux_none_imp (q : Nat → Bool) :
    ∀ k lo, scanFirstAux q k lo = none → ∀ y, lo ≤ y → y < lo + k → q y = false := by
  intro k
  induction k with
  | zero => intro lo _ y h1 h2; omega
  | succ k ih =>
    intro lo h y h1 h2
    rw [scanFirstAux] at h
    by_cases hq : q lo = true
    · rw [if_pos hq] at h; cases h
    · rw [if_neg hq] at h
      rcases Nat.eq_or_lt_of_le h1 with rfl | hgt
      · exact Bool.eq_false_iff.mpr hq
      · exact ih (lo + 1) h y (by omega) (by omega)

theorem scanFirstAux_hit (q : Nat → Bool) :
    ∀ k lo m, lo ≤ m → m < lo + k → q m = true → (∀ y, y < m → q y = false) →
      scanFirstAux q k lo = some m := by
  intro k
  induction k with
  | zero => intro lo m h1 h2 _ _; omega
  | succ k ih =>
    intro lo m h1 h2 hq hmin
    rw [scanFirstAux]
    rcases Nat.eq_or_lt_of_le h1 with rfl | hgt
    · rw [if_pos hq]
    · rw [if_neg (by simp [hmin lo hgt])]
      exact ih (lo + 1) m (by omega) (by omega) hq hmin

theorem findIfIdx_le (q : Nat → Bool) (N : Nat) : findIfIdx q N ≤ N := by
  unfold findIfIdx
  cases h : scanFirstAux q N 0 with
  | none => simp
  | some x =>
    obtain ⟨_, h2, _, _⟩ := scanFirstAux_some q N 0 x h
    simpa using by omega

theorem findIfIdx_hit (q : Nat → Bool) (N : Nat) (h : findIfIdx q N < N) :
    q (findIfIdx q N) = true := by
  unfold findIfIdx at h ⊢
  cases hs : scanFirstAux q N 0 with
  | none => rw [hs] at h; simp at h
  | some x =>
    obtain ⟨_, _, h3, _⟩ := scanFirstAux_some q N 0 x hs
    simpa using h3

theorem findIfIdx_before (q : Nat → Bool) (N : Nat) :
    ∀ y, y < findIfIdx q N → q y = false := by
  intro y hy
  have hle := findIfIdx_le q N
  unfold findIfIdx at hy
  cases hs : scanFirstAux q N 0 with
  | none =>
    rw [hs] at hy
    simp at hy
    exact scanFirstAux_none_imp q N 0 hs y (by omega) (by omega)
  | some x =>
    obtain ⟨_, _, _, h4⟩ := scanFirstAux_some q N 0 x hs
    rw [hs] at hy
    simp at hy
    exact h4 y (by omega) hy

theorem findIfIdx_least (q : Nat → Bool) (N : Nat) :
    ∀ y, y < N → q y = true → findIfIdx q N ≤ y := by
  intro y hy hq
  by_contra hlt
  push_neg at hlt
  rw [findIfIdx_before q N y hlt] at hq
  cases hq

/-! ### Find path: the final offset equals the serial index -/

theorem findChunkStep_bounds (q : Nat → Bool) (N off : Nat) (ch : Nat × Nat × Bool)
    (h : findIfIdx q N ≤ off) :
    findIfIdx q N ≤ findChunkStep q N off ch ∧ findChunkStep q N off ch ≤ off := by
  unfold findChunkStep
  by_cases hp : off < ch.1
  · rw [if_pos hp]
    exact ⟨h, Nat.le_refl _⟩
  · rw [if_neg hp]
    split
    · rename_i x hs
      obtain ⟨h1, h2, h3, _⟩ := scanFirstAux_some q _ _ x hs
      have hxN : x < N := by omega
      have hle : findIfIdx q N ≤ x := findIfIdx_least q N x hxN h3
      exact ⟨by omega, by omega⟩
    · exact ⟨h, Nat.le_refl _⟩

theorem findChunkStep_hit (q : Nat → Bool) (N off : Nat) (ch : Nat × Nat × Bool)
    (hb : ch.1 ≤ findIfIdx q N) (he : findIfIdx q N < min (ch.1 + ch.2.1) N)
    (hoff : findIfIdx q N ≤ off) :
    findChunkStep q N off ch = findIfIdx q N := by
  unfold findChunkStep
  rw [if_neg (by omega)]
  have hsome : scanFirstAux q (min (ch.1 + ch.2.1) N - ch.1) ch.1 = some (findIfIdx q N) := by
    apply scanFirstAux_hit q _ _ _ hb (by omega) (findIfIdx_hit q N (by omega))
    exact findIfIdx_before q N
  rw [hsome]
  show min off (findIfIdx q N) = findIfIdx q N
  omega

theorem findChunkStep_miss (q : Nat → Bool) (N off : Nat) (ch : Nat × Nat × Bool)
    (hp : ¬ off < ch.1)
    (hnone : scanFirstAux q (min (ch.1 + ch.2.1) N - ch.1) ch.1 = none) :
    findChunkStep q N off ch = off := by
  unfold findChunkStep
  rw [if_neg hp, hnone]

theorem findFold_bounds (q : Nat → Bool) (N : Nat) :
    ∀ (L : List (Nat × Nat × Bool)) (off : Nat), findIfIdx q N ≤ off →
      findIfIdx q N ≤ L.foldl (findChunkStep q N) off ∧
      L.foldl (findChunkStep q N) off ≤ off := by
  intro L
  induction L with
  | nil => intro off h; exact ⟨h, Nat.le_refl _⟩
  | cons ch t ih =>
    intro off h
    rw [List.foldl_cons]
    obtain ⟨h1, h2⟩ := findChunkStep_bounds q N off ch h
    obtain ⟨h3, h4⟩ := ih _ h1
    exact ⟨h3, Nat.le_trans h4 h2⟩

theorem findFold_keep (q : Nat → Bool) (N : Nat) (L : List (Nat × Nat × Bool)) :
    L.foldl (findChunkStep q N) (findIfIdx q N) = findIfIdx q N := by
  obtain ⟨h1, h2⟩ := findFold_bounds q N L (findIfIdx q N) (Nat.le_refl _)
  omega

theorem findFold_static (q : Nat → Bool) (N W : Nat) (hW : 1 ≤ W) (hWN : W ≤ N)
    (hm : findIfIdx q N < N) :
    ∀ fuel w b off, W - w ≤ fuel → w < W → b = adjSum N W w → b ≤ findIfIdx q N →
      findIfIdx q N ≤ off →
      (spawnSim N W (adj N W) fuel w b).foldl (findChunkStep q N) off = findIfIdx q N := by
  intro fuel
  induction fuel with
  | zero => intro w b off hf hw _ _ _; omega
  | succ fuel ih =>
    intro w b off hf hw hb hbm hoff
    have hbN : b < N := by omega
    rw [spawnSim, if_pos ⟨hw, hbN⟩]
    by_cases hend : w + 1 = W ∨ N ≤ b + adj N W w
    · rw [if_pos hend]
      have hme : findIfIdx q N < min (b + adj N W w) N := by
        rcases hend with h | h
        · have hfull : b + adj N W w = N := by
            rw [hb, ← adjSum_succ, h]
            exact adjSum_full N W hW
          omega
        · omega
      rw [List.foldl_cons, List.foldl_nil]
      exact findChunkStep_hit q N off (b, adj N W w, true) hbm hme hoff
    · rw [if_neg hend]
      push_neg at hend
      obtain ⟨hw1, hlt⟩ := hend
      rw [List.foldl_cons]
      rcases Nat.lt_or_ge (findIfIdx q N) (b + adj N W w) with hcase | hcase
      · have hstep : findChunkStep q N off (b, adj N W w, false) = findIfIdx q N :=
          findChunkStep_hit q N off (b, adj N W w, false) hbm (by simp; omega) hoff
        rw [hstep]
        exact findFold_keep q N _
      · have hstep : findChunkStep q N off (b, adj N W w, false) = off := by
          apply findChunkStep_miss q N off (b, adj N W w, false) (by simp; omega)
          apply scanFirstAux_eq_none
          intro y hy1 hy2
          apply findIfIdx_before q N
          simp at hy2
          omega
        rw [hstep]
        exact ih (w + 1) (b + adj N W w) off (by omega) (by omega)
          (by rw [hb, ← adjSum_succ]) (by omega) hoff

theorem findDynWorker_hit (q : Nat → Bool) (N c : Nat) (hc : 1 ≤ c)
    (hm : findIfIdx q N < N) :
    ∀ fuel cur, N - cur ≤ fuel → cur ≤ findIfIdx q N →
      (findDynWorker q N c fuel (cur, N)).2 = findIfIdx q N := by
  intro fuel
  induction fuel with
  | zero => intro cur hf hcm; omega
  | succ fuel ih =>
    intro cur hf hcm
    have hcur : cur < N := by omega
    rw [findDynWorker]
    dsimp only
    rw [if_pos hcur, if_neg (by omega : ¬ N < cur)]
    rcases Nat.lt_or_ge (findIfIdx q N) (min (cur + c) N) with hme | hme
    · have hsome : scanFirstAux q (min (cur + c) N - cur) cur = some (findIfIdx q N) := by
        apply scanFirstAux_hit q _ _ _ hcm (by omega) (findIfIdx_hit q N hm)
        exact findIfIdx_before q N
      rw [hsome]
      show min N (findIfIdx q N) = findIfIdx q N
      have := findIfIdx_le q N
      omega
    · have hnone : scanFirstAux q (min (cur + c) N - cur) cur = none := by
        apply scanFirstAux_eq_none
        intro y hy1 hy2
        apply findIfIdx_before q N
        omega
      rw [hnone]
      exact ih (cur + c) (by omega) (by omega)

theorem findDynWorker_keep (q : Nat → Bool) (N c : Nat) :
    ∀ fuel cur, (findDynWorker q N c fuel (cur, findIfIdx q N)).2 = findIfIdx q N := by
  intro fuel
  induction fuel with
  | zero => intro cur; rfl
  | succ fuel ih =>
    intro cur
    rw [findDynWorker]
    dsimp only
    by_cases hcur : cur < N
    · rw [if_pos hcur]
      by_cases hp : findIfIdx q N < cur
      · rw [if_pos hp]
      · rw [if_neg hp]
        cases hs : scanFirstAux q (min (cur + c) N - cur) cur with
        | some x =>
          obtain ⟨h1, h2, h3, _⟩ := scanFirstAux_some q _ _ x hs
          have hxN : x < N := by omega
          have hle := findIfIdx_least q N x hxN h3
          show min (findIfIdx q N) x = findIfIdx q N
          omega
        | none =>
          exact ih (cur + c)
    · rw [if_neg hcur]

theorem iterWorkers_preserve {σ : Type} (g : σ → σ) (P : σ → Prop)
    (hg : ∀ st, P st → P (g st)) : ∀ k st, P st → P (iterWorkers g k st) := by
  intro k
  induction k with
  | zero => intro st h; exact h
  | succ k ih => intro st h; exact ih (g st) (hg st h)

theorem findEngine_resultIdx (q : Nat → Bool) (N W chunkSz : Nat) (pt : PType) :
    (findEngine q N W chunkSz pt).resultIdx = findIfIdx q N := by
  unfold findEngine
  by_cases h : W ≤ 1 ∨ N ≤ chunkSz
  · rw [if_pos h]
  · rw [if_neg h]
    push_neg at h
    obtain ⟨hW2, hNc⟩ := h
    have hWc1 : 1 ≤ min W N := by omega
    have hWcN : min W N ≤ N := Nat.min_le_right _ _
    cases pt with
    | pstatic =>
      show (spawnSim N (min W N) (adj N (min W N)) (min W N) 0 0).foldl
          (findChunkStep q N) N = findIfIdx q N
      rcases Nat.lt_or_ge (findIfIdx q N) N with hmlt | hmge
      · exact findFold_static q N (min W N) hWc1 hWcN hmlt (min W N) 0 0 N
          (by omega) (by omega) rfl (by omega) (findIfIdx_le q N)
      · have hmN : findIfIdx q N = N := by
          have := findIfIdx_le q N
          omega
        have hk := findFold_keep q N (spawnSim N (min W N) (adj N (min W N)) (min W N) 0 0)
        rw [hmN] at hk
        rw [hk, hmN]
    | pdynamic =>
      show (iterWorkers (fun st => findDynWorker q N (max 1 chunkSz) N st)
          (min W N) (0, N)).2 = findIfIdx q N
      cases hWc : min W N with
      | zero => omega
      | succ k =>
        rw [iterWorkers]
        have hfirst : ((fun st => findDynWorker q N (max 1 chunkSz) N st) (0, N)).2 =
            findIfIdx q N := by
          rcases Nat.lt_or_ge (findIfIdx q N) N with hmlt | hmge
          · exact findDynWorker_hit q N (max 1 chunkSz) (by omega) hmlt N 0 (by omega) (by omega)
          · have hmN : findIfIdx q N = N := by
              have := findIfIdx_le q N
              omega
            have hk := findDynWorker_keep q N (max 1 chunkSz) N 0
            rw [hmN] at hk
            rw [hk, hmN]
        have hpres : ∀ st : Nat × Nat, st.2 = findIfIdx q N →
            ((fun st => findDynWorker q N (max 1 chunkSz) N st) st).2 = findIfIdx q N := by
          intro st hst
          obtain ⟨cur, off⟩ := st
          dsimp only at hst
          subst hst
          exact findDynWorker_keep q N (max 1 chunkSz) N cur
        exact iterWorkers_preserve (fun st => findDynWorker q N (max 1 chunkSz) N st)
          (fun st : Nat × Nat => st.2 = findIfIdx q N) hpres k _ hfirst

theorem findEngine_serial (q : Nat → Bool) (N W chunkSz : Nat) (pt : PType)
    (h : W ≤ 1 ∨ N ≤ chunkSz) :
    findEngine q N W chunkSz pt =
      { resultIdx := findIfIdx q N, numAsync := 0, numInline := 0,
        numReleases := 0, guard := false } := by
  unfold findEngine
  rw [if_pos h]

theorem mmEngine_serial {α : Type} (f : Nat → α) (lt : α → α → Bool) (seed : Nat → Nat → Nat)
    (serialIdx N W chunkSz : Nat) (pt : PType) (h : W ≤ 1 ∨ N ≤ chunkSz) :
    mmEngine f lt seed serialIdx N W chunkSz pt =
      { resultIdx := serialIdx, numAsync := 0, numInline := 0,
        numReleases := 0, guard := false } := by
  unfold mmEngine
  rw [if_pos h]

theorem findEngine_counts_static (q : Nat → Bool) (N W chunkSz : Nat)
    (h : ¬ (W ≤ 1 ∨ N ≤ chunkSz)) :
    (findEngine q N W chunkSz PType.pstatic).numAsync = min W N - 1 ∧
    (findEngine q N W chunkSz PType.pstatic).numInline = 1 ∧
    (findEngine q N W chunkSz PType.pstatic).numReleases =
      (findEngine q N W chunkSz PType.pstatic).numAsync +
        (findEngine q N W chunkSz PType.pstatic).numInline := by
  unfold findEngine
  rw [if_neg h]
  push_neg at h
  obtain ⟨hW2, hNc⟩ := h
  have hWc1 : 1 ≤ min W N := by omega
  have hWcN : min W N ≤ N := Nat.min_le_right _ _
  have hc := spawnSim_counts_exact N (min W N) hWc1 hWcN (min W N) 0 0
    (by omega) (by omega) rfl
  have hsplit := count_split (spawnSim N (min W N) (adj N (min W N)) (min W N) 0 0)
  dsimp only
  omega

theorem findEngine_counts_dynamic (q : Nat → Bool) (N W chunkSz : Nat)
    (h : ¬ (W ≤ 1 ∨ N ≤ chunkSz)) :
    (findEngine q N W chunkSz PType.pdynamic).numAsync = min W N - 1 ∧
    (findEngine q N W chunkSz PType.pdynamic).numInline = 1 ∧
    (findEngine q N W chunkSz PType.pdynamic).numReleases =
      (findEngine q N W chunkSz PType.pdynamic).numAsync +
        (findEngine q N W chunkSz PType.pdynamic).numInline := by
  unfold findEngine
  rw [if_neg h]
  push_neg at h
  obtain ⟨hW2, hNc⟩ := h
  have hWc1 : 1 ≤ min W N := by omega
  have hc := dynSpawnFlags_counts (min W N) (min W N) 0 (by omega) (by omega)
  have hsplit := countB_split (dynSpawnFlags (min W N) (min W N) 0)
  dsimp only
  omega

theorem mmEngine_counts_dynamic {α : Type} (f : Nat → α) (lt : α → α → Bool)
    (seed : Nat → Nat → Nat) (serialIdx N W chunkSz : Nat)
    (h : ¬ (W ≤ 1 ∨ N ≤ chunkSz)) :
    (mmEngine f lt seed serialIdx N W chunkSz PType.pdynamic).numAsync = min W N - 1 ∧
    (mmEngine f lt seed serialIdx N W chunkSz PType.pdynamic).numInline = 1 ∧
    (mmEngine f lt seed serialIdx N W chunkSz PType.pdynamic).numReleases =
      (mmEngine f lt seed serialIdx N W chunkSz PType.pdynamic).numAsync +
        (mmEngine f lt seed serialIdx N W chunkSz PType.pdynamic).numInline := by
  unfold mmEngine
  rw [if_neg h]
  push_neg at h
  obtain ⟨hW2, hNc⟩ := h
  have hWc1 : 1 ≤ min W N := by omega
  have hc := dynSpawnFlags_counts (min W N) (min W N) 0 (by omega) (by omega)
  have hsplit := countB_split (dynSpawnFlags (min W N) (min W N) 0)
  dsimp only
  omega

theorem mmEngine_counts_static {α : Type} (f : Nat → α) (lt : α → α → Bool)
    (seed : Nat → Nat → Nat) (serialIdx N W chunkSz : Nat)
    (h : ¬ (W ≤ 1 ∨ N ≤ chunkSz)) :
    (mmEngine f lt seed serialIdx N W chunkSz PType.pstatic).numAsync +
      (mmEngine f lt seed serialIdx N W chunkSz PType.pstatic).numInline ≤ min W N ∧
    (mmEngine f lt seed serialIdx N W chunkSz PType.pstatic).numInline ≤ 1 ∧
    (2 ≤ N → (mmEngine f lt seed serialIdx N W chunkSz PType.pstatic).numInline = 1) ∧
    (mmEngine f lt seed serialIdx N W chunkSz PType.pstatic).numReleases =
      (mmEngine f lt seed serialIdx N W chunkSz PType.pstatic).numAsync +
        (mmEngine f lt seed serialIdx N W chunkSz PType.pstatic).numInline := by
  unfold mmEngine
  rw [if_neg h]
  push_neg at h
  obtain ⟨hW2, hNc⟩ := h
  have hWc1 : 1 ≤ min W N := by omega
  have hsh := spawnSim_shape (N - 1) (min W N) (fun w => max 2 (adj (N - 1) (min W N) w))
    (min W N) 0 0 (by omega)
  have hsplit := count_split
    (spawnSim (N - 1) (min W N) (fun w => max 2 (adj (N - 1) (min W N) w)) (min W N) 0 0)
  dsimp only
  constructor
  · omega
  constructor
  · rcases hsh with ⟨hi, hl⟩
    by_cases hcond : 0 < min W N ∧ 0 < N - 1
    · rw [hi, if_pos hcond]
    · rw [hi, if_neg hcond]
      omega
  constructor
  · intro hN2
    rcases hsh with ⟨hi, hl⟩
    rw [hi, if_pos ⟨by omega, by omega⟩]
  · omega

/-- Witness for C10 at the concrete scenario node. -/
theorem C10_setup_not_idempotent_witness :
    0 < numWeakDependents scenarioEnv (scenarioEnv 2) ∧
    ((scenarioEnv 2).nstate < (setUpJoinCounter scenarioEnv (scenarioEnv 2)).nstate ∧
     (setUpJoinCounter scenarioEnv (scenarioEnv 2)).nstate <
       (setUpJoinCounter scenarioEnv (setUpJoinCounter scenarioEnv (scenarioEnv 2))).nstate ∧
     (setUpJoinCounter scenarioEnv (setUpJoinCounter scenarioEnv (scenarioEnv 2))).joinCounter =
       (setUpJoinCounter scenarioEnv (scenarioEnv 2)).joinCounter) :=
  ⟨by decide, C10_setup_not_idempotent scenarioEnv (scenarioEnv 2) (by decide)⟩

/-! ### Min/max path: the merged result is a minimum under the comparator

All lemmas are stated for the `min` orientation of the update test `lt`;
`max_element` instantiates them with `comp` flipped. -/

theorem lt_asymm {α : Type} (lt : α → α → Bool) (hirr : ∀ a, lt a a = false)
    (htr : ∀ a b c, lt a b = true → lt b c = true → lt a c = true) :
    ∀ a b, lt a b = true → lt b a = false := by
  intro a b hab
  cases hba : lt b a
  · rfl
  · have := htr a b a hab hba
    rw [hirr a] at this
    cases this

theorem oscan_spec {α : Type} (f : Nat → α) (lt : α → α → Bool)
    (hirr : ∀ a, lt a a = false)
    (htr : ∀ a b c, lt a b = true → lt b c = true → lt a c = true) :
    ∀ k lo s,
      (oscanAux f lt k lo s = s ∨
        (lo ≤ oscanAux f lt k lo s ∧ oscanAux f lt k lo s < lo + k)) ∧
      (∀ y, lt (f y) (f s) = false → lt (f y) (f (oscanAux f lt k lo s)) = false) ∧
      (∀ i, lo ≤ i → i < lo + k → lt (f i) (f (oscanAux f lt k lo s)) = false) := by
  intro k
  induction k with
  | zero =>
    intro lo s
    exact ⟨Or.inl rfl, fun y hy => hy, fun i h1 h2 => by omega⟩
  | succ k ih =>
    intro lo s
    have hunf : oscanAux f lt (k + 1) lo s =
        oscanAux f lt k (lo + 1) (if lt (f lo) (f s) then lo else s) := by
      rw [oscanAux]
    have hstep1 : lt (f lo) (f (if lt (f lo) (f s) then lo else s)) = false := by
      by_cases hc : lt (f lo) (f s) = true
      · rw [if_pos hc]
        exact hirr _
      · rw [if_neg hc]
        exact Bool.eq_false_iff.mpr hc
    have hstep2 : ∀ y, lt (f y) (f s) = false →
        lt (f y) (f (if lt (f lo) (f s) then lo else s)) = false := by
      intro y hy
      by_cases hc : lt (f lo) (f s) = true
      · rw [if_pos hc]
        cases hyl : lt (f y) (f lo)
        · rfl
        · have := htr _ _ _ hyl hc
          rw [hy] at this
          cases this
      · rw [if_neg hc]
        exact hy
    obtain ⟨ihmem, ihpre, ihcov⟩ := ih (lo + 1) (if lt (f lo) (f s) then lo else s)
    refine ⟨?_, ?_, ?_⟩
    · rw [hunf]
      rcases ihmem with he | hb
      · rw [he]
        by_cases hc : lt (f lo) (f s) = true
        · rw [if_pos hc]
          right
          omega
        · rw [if_neg hc]
          left
          rfl
      · right
        omega
    · intro y hy
      rw [hunf]
      exact ihpre y (hstep2 y hy)
    · intro i h1 h2
      rw [hunf]
      rcases Nat.eq_or_lt_of_le h1 with rfl | hgt
      · exact ihpre lo hstep1
      · exact ihcov i (by omega) (by omega)

theorem oscan_append {α : Type} (f : Nat → α) (lt : α → α → Bool) :
    ∀ k1 k2 lo s, oscanAux f lt (k1 + k2) lo s =
      oscanAux f lt k2 (lo + k1) (oscanAux f lt k1 lo s) := by
  intro k1
  induction k1 with
  | zero =>
    intro k2 lo s
    rw [Nat.zero_add, Nat.add_zero]
    rfl
  | succ k1 ih =>
    intro k2 lo s
    rw [Nat.succ_add, oscanAux, oscanAux, ih]
    have harith : lo + 1 + k1 = lo + (k1 + 1) := by omega
    rw [harith]

theorem minElIdx_spec {α : Type} (f : Nat → α) (comp : α → α → Bool)
    (hirr : ∀ a, comp a a = false)
    (htr : ∀ a b c, comp a b = true → comp b c = true → comp a c = true)
    (N : Nat) (hN : 1 ≤ N) :
    minElIdx f comp N < N ∧ ∀ i, i < N → comp (f i) (f (minElIdx f comp N)) = false := by
  obtain ⟨hmem, hpre, hcov⟩ := oscan_spec f comp hirr htr (N - 1) 1 0
  unfold minElIdx
  constructor
  · rcases hmem with he | hb
    · omega
    · omega
  · intro i hi
    rcases Nat.eq_zero_or_pos i with rfl | hpos
    · exact hpre 0 (hirr _)
    · exact hcov i (by omega) (by omega)

theorem seedP_min {α : Type} (f : Nat → α) (comp : α → α → Bool)
    (hirr : ∀ a, comp a a = false)
    (htr : ∀ a b c, comp a b = true → comp b c = true → comp a c = true)
    (a b : Nat) :
    ((if comp (f a) (f b) then a else b) = a ∨ (if comp (f a) (f b) then a else b) = b) ∧
    comp (f a) (f (if comp (f a) (f b) then a else b)) = false ∧
    comp (f b) (f (if comp (f a) (f b) then a else b)) = false := by
  by_cases hc : comp (f a) (f b) = true
  · rw [if_pos hc]
    exact ⟨Or.inl rfl, hirr _, lt_asymm comp hirr htr _ _ hc⟩
  · rw [if_neg hc]
    exact ⟨Or.inr rfl, Bool.eq_false_iff.mpr hc, hirr _⟩

theorem seedP_max {α : Type} (f : Nat → α) (comp : α → α → Bool)
    (hirr : ∀ a, comp a a = false)
    (htr : ∀ a b c, comp a b = true → comp b c = true → comp a c = true)
    (a b : Nat) :
    ((if comp (f a) (f b) then b else a) = a ∨ (if comp (f a) (f b) then b else a) = b) ∧
    comp (f (if comp (f a) (f b) then b else a)) (f a) = false ∧
    comp (f (if comp (f a) (f b) then b else a)) (f b) = false := by
  by_cases hc : comp (f a) (f b) = true
  · rw [if_pos hc]
    exact ⟨Or.inr rfl, lt_asymm comp hirr htr _ _ hc, hirr _⟩
  · rw [if_neg hc]
    exact ⟨Or.inl rfl, hirr _, Bool.eq_false_iff.mpr hc⟩

theorem adjSum_mono (Np W : Nat) : ∀ d k, adjSum Np W k ≤ adjSum Np W (k + d) := by
  intro d
  induction d with
  | zero => intro k; exact Nat.le_refl _
  | succ d ih =>
    intro k
    calc adjSum Np W k ≤ adjSum Np W (k + 1) := by rw [adjSum_succ]; omega
    _ ≤ adjSum Np W (k + 1 + d) := ih (k + 1)
    _ = adjSum Np W (k + (d + 1)) := by rw [show k + 1 + d = k + (d + 1) from by omega]

theorem adjSum_ge_full (Np W w : Nat) (hW : 1 ≤ W) (hw : W ≤ w) : Np ≤ adjSum Np W w := by
  have h := adjSum_mono Np W (w - W) W
  rw [show W + (w - W) = w from by omega] at h
  have hfull := adjSum_full Np W hW
  omega

theorem mmStaticStep_spec {α : Type} (f : Nat → α) (lt : α → α → Bool) (seed : Nat → Nat → Nat)
    (hirr : ∀ a, lt a a = false)
    (htr : ∀ a b c, lt a b = true → lt b c = true → lt a c = true)
    (hsp : ∀ a b c, lt a b = true → lt a c = true ∨ lt c b = true)
    (hseed : ∀ a b, (seed a b = a ∨ seed a b = b) ∧
      lt (f a) (f (seed a b)) = false ∧ lt (f b) (f (seed a b)) = false)
    (N Np : Nat) (hNp : Np + 1 = N)
    (b k : Nat) (fl : Bool) (res : Nat) (hb : b < Np) (hk : 2 ≤ k) (hres : res < N)
    (hcov : ∀ i, i < b + 1 → lt (f i) (f res) = false) :
    mmStaticStep f lt seed Np res (b, k, fl) < N ∧
    ∀ i, i < min (b + k) Np + 1 →
      lt (f i) (f (mmStaticStep f lt seed Np res (b, k, fl))) = false := by
  unfold mmStaticStep
  dsimp only
  by_cases h1 : Np - b = 1
  · rw [if_pos h1]
    by_cases hc : lt (f (b + 1)) (f res) = true
    · rw [if_pos hc]
      refine ⟨by omega, ?_⟩
      intro i hi
      rcases Nat.lt_or_ge i (b + 1) with hilt | hige
      · cases hil : lt (f i) (f (b + 1))
        · rfl
        · have hcontra := htr _ _ _ hil hc
          rw [hcov i hilt] at hcontra
          cases hcontra
      · have hieq : i = b + 1 := by omega
        rw [hieq]
        exact hirr _
    · rw [if_neg hc]
      refine ⟨hres, ?_⟩
      intro i hi
      rcases Nat.lt_or_ge i (b + 1) with hilt | hige
      · exact hcov i hilt
      · have hieq : i = b + 1 := by omega
        rw [hieq]
        exact Bool.eq_false_iff.mpr hc
  · rw [if_neg h1]
    have hb2 : b + 2 ≤ Np := by omega
    have he2 : b + 2 ≤ min (b + k) Np := by omega
    obtain ⟨hm, hp1, hp2⟩ := hseed (b + 1) (b + 2)
    obtain ⟨smem, spre, scov⟩ := oscan_spec f lt hirr htr
      (min (b + k) Np + 1 - (b + 3)) (b + 3) (seed (b + 1) (b + 2))
    set loc := oscanAux f lt (min (b + k) Np + 1 - (b + 3)) (b + 3) (seed (b + 1) (b + 2))
      with hloceq
    have hlocN : loc < N := by
      rcases smem with he | hbnd
      · rcases hm with h | h <;> omega
      · omega
    have hloccov : ∀ i, b + 1 ≤ i → i < min (b + k) Np + 1 → lt (f i) (f loc) = false := by
      intro i hi1 hi2
      rcases Nat.lt_or_ge i (b + 3) with hlt3 | hge3
      · have hi12 : i = b + 1 ∨ i = b + 2 := by omega
        rcases hi12 with h | h
        · rw [h]
          exact spre _ hp1
        · rw [h]
          exact spre _ hp2
      · exact scov i hge3 (by omega)
    by_cases hc : lt (f loc) (f res) = true
    · rw [if_pos hc]
      refine ⟨hlocN, ?_⟩
      intro i hi
      rcases Nat.lt_or_ge i (b + 1) with hilt | hige
      · cases hil : lt (f i) (f loc)
        · rfl
        · have hcontra := htr _ _ _ hil hc
          rw [hcov i hilt] at hcontra
          cases hcontra
      · exact hloccov i hige hi
    · rw [if_neg hc]
      refine ⟨hres, ?_⟩
      intro i hi
      rcases Nat.lt_or_ge i (b + 1) with hilt | hige
      · exact hcov i hilt
      · cases hir : lt (f i) (f res)
        · rfl
        · rcases hsp (f i) (f res) (f loc) hir with h | h
          · rw [hloccov i hige hi] at h
            cases h
          · rw [Bool.eq_false_iff.mpr hc] at h
            cases h

theorem mmFold_static {α : Type} (f : Nat → α) (lt : α → α → Bool) (seed : Nat → Nat → Nat)
    (hirr : ∀ a, lt a a = false)
    (htr : ∀ a b c, lt a b = true → lt b c = true → lt a c = true)
    (hsp : ∀ a b c, lt a b = true → lt a c = true ∨ lt c b = true)
    (hseed : ∀ a b, (seed a b = a ∨ seed a b = b) ∧
      lt (f a) (f (seed a b)) = false ∧ lt (f b) (f (seed a b)) = false)
    (N Np W : Nat) (hNp : Np + 1 = N) (hW : 1 ≤ W)
    (cf : Nat → Nat) (hcf2 : ∀ w, 2 ≤ cf w) (hcfa : ∀ w, adj Np W w ≤ cf w) :
    ∀ fuel w b res, W - w ≤ fuel → adjSum Np W w ≤ b → res < N →
      (∀ i, i < b + 1 → lt (f i) (f res) = false) →
      ((spawnSim Np W cf fuel w b).foldl (mmStaticStep f lt seed Np) res < N ∧
       ∀ i, i < N →
         lt (f i) (f ((spawnSim Np W cf fuel w b).foldl (mmStaticStep f lt seed Np) res)) =
           false) := by
  intro fuel
  induction fuel with
  | zero =>
    intro w b res hf hadj hres hcov
    have hwW : W ≤ w := by omega
    have hbNp : Np ≤ b := Nat.le_trans (adjSum_ge_full Np W w hW hwW) hadj
    exact ⟨hres, fun i hi => hcov i (by omega)⟩
  | succ fuel ih =>
    intro w b res hf hadj hres hcov
    rw [spawnSim]
    by_cases hcond : w < W ∧ b < Np
    · rw [if_pos hcond]
      obtain ⟨hw, hb⟩ := hcond
      have hstep := mmStaticStep_spec f lt seed hirr htr hsp hseed N Np hNp
        b (cf w) true res hb (hcf2 w) hres hcov
      have hstepf := mmStaticStep_spec f lt seed hirr htr hsp hseed N Np hNp
        b (cf w) false res hb (hcf2 w) hres hcov
      by_cases hend : w + 1 = W ∨ Np ≤ b + cf w
      · rw [if_pos hend]
        rw [List.foldl_cons, List.foldl_nil]
        have hfull : Np ≤ b + cf w := by
          rcases hend with h | h
          · have h1 : adjSum Np W (w + 1) ≤ b + cf w := by
              rw [adjSum_succ]
              have := hcfa w
              omega
            rw [h, adjSum_full Np W hW] at h1
            exact h1
          · exact h
        have hmin : min (b + cf w) Np = Np := by omega
        refine ⟨hstep.1, ?_⟩
        intro i hi
        exact hstep.2 i (by omega)
      · rw [if_neg hend]
        push_neg at hend
        obtain ⟨hw1, hlt⟩ := hend
        rw [List.foldl_cons]
        have hmin : min (b + cf w) Np = b + cf w := by omega
        refine ih (w + 1) (b + cf w) (mmStaticStep f lt seed Np res (b, cf w, false))
          (by omega) ?_ hstepf.1 ?_
        · rw [adjSum_succ]
          have := hcfa w
          omega
        · intro i hi
          exact hstepf.2 i (by omega)
    · rw [if_neg hcond]
      have hbNp : Np ≤ b := by
        rcases Nat.lt_or_ge b Np with hblt | hbge
        · have hwW : W ≤ w := by
            by_contra hno
            push_neg at hno
            exact hcond ⟨hno, hblt⟩
          exact Nat.le_trans (adjSum_ge_full Np W w hW hwW) hadj
        · exact hbge
      exact ⟨hres, fun i hi => hcov i (by omega)⟩

theorem mmDynScan_fst {α : Type} (f : Nat → α) (lt : α → α → Bool) (Np c : Nat)
    (hc : 1 ≤ c) : ∀ fuel cur s, Np - cur ≤ fuel →
      Np ≤ (mmDynScan f lt Np c fuel cur s).1 := by
  intro fuel
  induction fuel with
  | zero => intro cur s hf; exact (by omega : Np ≤ cur)
  | succ fuel ih =>
    intro cur s hf
    rw [mmDynScan]
    by_cases hcur : cur < Np
    · rw [if_pos hcur]
      exact ih (cur + c) _ (by omega)
    · rw [if_neg hcur]
      omega

theorem mmDynScan_snd {α : Type} (f : Nat → α) (lt : α → α → Bool) (Np c : Nat)
    (hc : 1 ≤ c) : ∀ fuel cur s, Np - cur ≤ fuel →
      (mmDynScan f lt Np c fuel cur s).2 = oscanAux f lt (Np - cur) (cur + 1) s := by
  intro fuel
  induction fuel with
  | zero =>
    intro cur s hf
    rw [show Np - cur = 0 from by omega]
    rfl
  | succ fuel ih =>
    intro cur s hf
    rw [mmDynScan]
    by_cases hcur : cur < Np
    · rw [if_pos hcur]
      rw [ih (cur + c) _ (by omega)]
      rcases le_or_lt (cur + c) Np with hcc | hcc
      · have e1 : min (cur + c) Np - cur = c := by omega
        have e2 : Np - cur = c + (Np - (cur + c)) := by omega
        rw [e1, e2, oscan_append]
        have e3 : cur + 1 + c = cur + c + 1 := by omega
        rw [e3]
      · have e1 : min (cur + c) Np - cur = Np - cur := by omega
        have e2 : Np - (cur + c) = 0 := by omega
        rw [e1, e2]
        rfl
    · rw [if_neg hcur]
      rw [show Np - cur = 0 from by omega]
      rfl

theorem mmDynWorker_skip {α : Type} (f : Nat → α) (lt : α → α → Bool)
    (seed : Nat → Nat → Nat) (Np c : Nat) (st : Nat × Nat) (h : Np ≤ st.1) :
    mmDynWorker f lt seed Np c st = (st.1 + 2, st.2) := by
  unfold mmDynWorker
  rw [if_pos h]

theorem mmDynWorker_first {α : Type} (f : Nat → α) (lt : α → α → Bool)
    (seed : Nat → Nat → Nat)
    (hirr : ∀ a, lt a a = false)
    (htr : ∀ a b c, lt a b = true → lt b c = true → lt a c = true)
    (hsp : ∀ a b c, lt a b = true → lt a c = true ∨ lt c b = true)
    (hseed : ∀ a b, (seed a b = a ∨ seed a b = b) ∧
      lt (f a) (f (seed a b)) = false ∧ lt (f b) (f (seed a b)) = false)
    (N Np c : Nat) (hNp : Np + 1 = N) (hc : 1 ≤ c) :
    Np ≤ (mmDynWorker f lt seed Np c (0, 0)).1 ∧
    (mmDynWorker f lt seed Np c (0, 0)).2 < N ∧
    ∀ i, i < N → lt (f i) (f (mmDynWorker f lt seed Np c (0, 0)).2) = false := by
  unfold mmDynWorker
  dsimp only
  by_cases h0 : Np ≤ 0
  · rw [if_pos h0]
    refine ⟨by omega, by omega, ?_⟩
    intro i hi
    have hieq : i = 0 := by omega
    rw [hieq]
    exact hirr _
  · rw [if_neg h0]
    by_cases h1 : Np - 0 = 1
    · rw [if_pos h1]
      have hN2 : N = 2 := by omega
      by_cases hc1 : lt (f (0 + 1)) (f 0) = true
      · rw [if_pos hc1]
        refine ⟨by omega, by omega, ?_⟩
        intro i hi
        have hi01 : i = 0 ∨ i = 1 := by omega
        rcases hi01 with h | h
        · rw [h]
          exact lt_asymm lt hirr htr _ _ hc1
        · rw [h]
          exact hirr _
      · rw [if_neg hc1]
        refine ⟨by omega, by omega, ?_⟩
        intro i hi
        have hi01 : i = 0 ∨ i = 1 := by omega
        rcases hi01 with h | h
        · rw [h]
          exact hirr _
        · rw [h]
          exact Bool.eq_false_iff.mpr hc1
    · rw [if_neg h1]
      have hNp2 : 2 ≤ Np := by omega
      simp only [Nat.zero_add]
      obtain ⟨hm, hp1, hp2⟩ := hseed 1 2
      have hfst := mmDynScan_fst f lt Np c hc Np 2 (seed 1 2) (by omega)
      have hsnd := mmDynScan_snd f lt Np c hc Np 2 (seed 1 2) (by omega)
      obtain ⟨smem, spre, scov⟩ := oscan_spec f lt hirr htr (Np - 2) (2 + 1) (seed 1 2)
      rw [hsnd]
      set loc := oscanAux f lt (Np - 2) (2 + 1) (seed 1 2) with hloceq
      have hlocN : loc < N := by
        rcases smem with he | hbnd
        · rcases hm with h | h <;> omega
        · omega
      have hloccov : ∀ i, 1 ≤ i → i < N → lt (f i) (f loc) = false := by
        intro i hi1 hi2
        rcases Nat.lt_or_ge i 3 with hlt3 | hge3
        · have hi12 : i = 1 ∨ i = 2 := by omega
          rcases hi12 with h | h
          · rw [h]
            exact spre _ hp1
          · rw [h]
            exact spre _ hp2
        · exact scov i (by omega) (by omega)
      by_cases hcm : lt (f loc) (f 0) = true
      · rw [if_pos hcm]
        refine ⟨hfst, hlocN, ?_⟩
        intro i hi
        rcases Nat.eq_zero_or_pos i with rfl | hpos
        · cases hil : lt (f 0) (f loc)
          · rfl
          · have hcontra := htr _ _ _ hil hcm
            rw [hirr _] at hcontra
            cases hcontra
        · exact hloccov i hpos hi
      · rw [if_neg hcm]
        refine ⟨hfst, by omega, ?_⟩
        intro i hi
        rcases Nat.eq_zero_or_pos i with rfl | hpos
        · exact hirr _
        · cases hir : lt (f i) (f 0)
          · rfl
          · rcases hsp (f i) (f 0) (f loc) hir with h | h
            · rw [hloccov i hpos hi] at h
              cases h
            · rw [Bool.eq_false_iff.mpr hcm] at h
              cases h

theorem mmEngine_correct {α : Type} (f : Nat → α) (lt : α → α → Bool)
    (seed : Nat → Nat → Nat) (serialIdx N W chunkSz : Nat) (pt : PType)
    (hirr : ∀ a, lt a a = false)
    (htr : ∀ a b c, lt a b = true → lt b c = true → lt a c = true)
    (hsp : ∀ a b c, lt a b = true → lt a c = true ∨ lt c b = true)
    (hseed : ∀ a b, (seed a b = a ∨ seed a b = b) ∧
      lt (f a) (f (seed a b)) = false ∧ lt (f b) (f (seed a b)) = false)
    (hserial : serialIdx < N ∧ ∀ i, i < N → lt (f i) (f serialIdx) = false)
    (hN : 1 ≤ N) :
    (mmEngine f lt seed serialIdx N W chunkSz pt).resultIdx < N ∧
    ∀ i, i < N →
      lt (f i) (f (mmEngine f lt seed serialIdx N W chunkSz pt).resultIdx) = false := by
  by_cases h : W ≤ 1 ∨ N ≤ chunkSz
  · rw [mmEngine_serial f lt seed serialIdx N W chunkSz pt h]
    exact ⟨hserial.1, hserial.2⟩
  · unfold mmEngine
    rw [if_neg h]
    push_neg at h
    obtain ⟨hW2, hNc⟩ := h
    have hWc1 : 1 ≤ min W N := by omega
    cases pt with
    | pstatic =>
      show ((spawnSim (N - 1) (min W N) (fun w => max 2 (adj (N - 1) (min W N) w))
          (min W N) 0 0).foldl (mmStaticStep f lt seed (N - 1)) 0 < N ∧ _)
      have hfold := mmFold_static f lt seed hirr htr hsp hseed N (N - 1) (min W N)
        (by omega) hWc1 (fun w => max 2 (adj (N - 1) (min W N) w))
        (fun w => Nat.le_max_left _ _)
        (fun w => Nat.le_trans (Nat.le_max_right _ _) (Nat.le_refl _))
        (min W N) 0 0 0 (by omega) (Nat.le_refl 0) (by omega) ?_
      · exact hfold
      · intro i hi
        have hieq : i = 0 := by omega
        rw [hieq]
        exact hirr _
    | pdynamic =>
      show ((iterWorkers (mmDynWorker f lt seed (N - 1) (max 1 chunkSz)) (min W N)
          (0, 0)).2 < N ∧ _)
      cases hWc : min W N with
      | zero => omega
      | succ k =>
        rw [iterWorkers]
        have hfirst := mmDynWorker_first f lt seed hirr htr hsp hseed N (N - 1)
          (max 1 chunkSz) (by omega) (by omega)
        have hpres : ∀ st : Nat × Nat,
            (N - 1 ≤ st.1 ∧ st.2 < N ∧ ∀ i, i < N → lt (f i) (f st.2) = false) →
            (N - 1 ≤ (mmDynWorker f lt seed (N - 1) (max 1 chunkSz) st).1 ∧
             (mmDynWorker f lt seed (N - 1) (max 1 chunkSz) st).2 < N ∧
             ∀ i, i < N →
               lt (f i) (f (mmDynWorker f lt seed (N - 1) (max 1 chunkSz) st).2) = false) := by
          intro st hst
          rw [mmDynWorker_skip f lt seed (N - 1) (max 1 chunkSz) st hst.1]
          exact ⟨by omega, hst.2.1, hst.2.2⟩
        have hiter := iterWorkers_preserve (mmDynWorker f lt seed (N - 1) (max 1 chunkSz))
          (fun st => N - 1 ≤ st.1 ∧ st.2 < N ∧ ∀ i, i < N → lt (f i) (f st.2) = false)
          hpres k (mmDynWorker f lt seed (N - 1) (max 1 chunkSz) (0, 0))
          ⟨hfirst.1, hfirst.2.1, hfirst.2.2⟩
        exact ⟨hiter.2.1, hiter.2.2⟩

/-- C1: for every range, predicate, worker count and partitioner type, the
parallel find task stores the serial `std::find_if` index into `result`
(first satisfying index, or `N`), `make_find_if_not_task` agrees with
`std::find_if_not`, and the reported index is independent of the worker count
and the partitioner. -/
theorem C1_find_matches_serial (p : Nat → Bool) (N W chunkSz : Nat) (pt : PType) :
    (findIfTask p N W chunkSz pt).resultIdx = findIfIdx p N ∧
    (findIfNotTask p N W chunkSz pt).resultIdx = findIfNotIdx p N ∧
    (∀ W2 chunkSz2 pt2,
      (findIfTask p N W chunkSz pt).resultIdx = (findIfTask p N W2 chunkSz2 pt2).resultIdx ∧
      (findIfNotTask p N W chunkSz pt).resultIdx =
        (findIfNotTask p N W2 chunkSz2 pt2).resultIdx) := by
  refine ⟨findEngine_resultIdx p N W chunkSz pt, findEngine_resultIdx _ N W chunkSz pt, ?_⟩
  intro W2 chunkSz2 pt2
  constructor
  · rw [show findIfTask p N W chunkSz pt = findEngine p N W chunkSz pt from rfl,
      show findIfTask p N W2 chunkSz2 pt2 = findEngine p N W2 chunkSz2 pt2 from rfl,
      findEngine_resultIdx, findEngine_resultIdx]
  · rw [show findIfNotTask p N W chunkSz pt = findEngine (fun i => !p i) N W chunkSz pt from rfl,
      show findIfNotTask p N W2 chunkSz2 pt2 =
        findEngine (fun i => !p i) N W2 chunkSz2 pt2 from rfl,
      findEngine_resultIdx, findEngine_resultIdx]

theorem natLt_swo : IsSWO natLt := by
  refine ⟨?_, ?_, ?_⟩
  · intro a
    simp [natLt]
  · intro a b c h1 h2
    simp only [natLt, decide_eq_true_eq] at h1 h2 ⊢
    omega
  · intro a b c h
    simp only [natLt, decide_eq_true_eq] at h ⊢
    omega

/-- C2: for every non-empty range, every strict weak order `comp`, every
worker count and both partitioner types, the parallel `min_element` task's
result points to an element no element is strictly smaller than, and the
parallel `max_element` task's result points to an element that is strictly
smaller than no element. -/
theorem C2_minmax_correct {α : Type} (f : Nat → α) (comp : α → α → Bool)
    (N W chunkSz : Nat) (pt : PType) (hN : 1 ≤ N) (hswo : IsSWO comp) :
    ((minTask f comp N W chunkSz pt).resultIdx < N ∧
     ∀ i, i < N →
       comp (f i) (f (minTask f comp N W chunkSz pt).resultIdx) = false) ∧
    ((maxTask f comp N W chunkSz pt).resultIdx < N ∧
     ∀ i, i < N →
       comp (f (maxTask f comp N W chunkSz pt).resultIdx) (f i) = false) := by
  obtain ⟨hirr, htr, hsp⟩ := hswo
  constructor
  · exact mmEngine_correct f comp (fun a b => if comp (f a) (f b) then a else b)
      (minElIdx f comp N) N W chunkSz pt hirr htr hsp
      (fun a b => seedP_min f comp hirr htr a b)
      (minElIdx_spec f comp hirr htr N hN) hN
  · have htr2 : ∀ a b c : α, comp b a = true → comp c b = true → comp c a = true :=
      fun a b c h1 h2 => htr c b a h2 h1
    have hsp2 : ∀ a b c : α, comp b a = true → comp c a = true ∨ comp b c = true :=
      fun a b c h1 => (hsp b a c h1).symm
    exact mmEngine_correct f (fun x y => comp y x)
      (fun a b => if comp (f a) (f b) then b else a)
      (maxElIdx f comp N) N W chunkSz pt hirr htr2 hsp2
      (fun a b => seedP_max f comp hirr htr a b)
      (minElIdx_spec f (fun x y => comp y x) hirr htr2 N hN) hN

/-- Witness for C2 on the spec's sample range with three workers. -/
theorem C2_minmax_correct_witness :
    ((1 : Nat) ≤ 7 ∧ IsSWO natLt) ∧
    (((minTask sampleF natLt 7 3 1 PType.pstatic).resultIdx < 7 ∧
      ∀ i, i < 7 →
        natLt (sampleF i)
          (sampleF (minTask sampleF natLt 7 3 1 PType.pstatic).resultIdx) = false) ∧
     ((maxTask sampleF natLt 7 3 1 PType.pstatic).resultIdx < 7 ∧
      ∀ i, i < 7 →
        natLt (sampleF (maxTask sampleF natLt 7 3 1 PType.pstatic).resultIdx)
          (sampleF i) = false)) :=
  ⟨⟨by omega, natLt_swo⟩,
   C2_minmax_correct sampleF natLt 7 3 1 PType.pstatic (by omega) natLt_swo⟩

/-- C7: on the serial fallback (`W ≤ 1` or `N ≤ chunk_size`, including the
empty range), each of the four tasks stores the serial algorithm's result,
submits no asynchronous sub-task, runs no spawned body, and installs no
preemption guard. -/
theorem C7_serial_fallback {α : Type} (p : Nat → Bool) (f : Nat → α) (comp : α → α → Bool)
    (N W chunkSz : Nat) (pt : PType) (h : W ≤ 1 ∨ N ≤ chunkSz) :
    findIfTask p N W chunkSz pt =
      { resultIdx := findIfIdx p N, numAsync := 0, numInline := 0,
        numReleases := 0, guard := false } ∧
    findIfNotTask p N W chunkSz pt =
      { resultIdx := findIfNotIdx p N, numAsync := 0, numInline := 0,
        numReleases := 0, guard := false } ∧
    minTask f comp N W chunkSz pt =
      { resultIdx := minElIdx f comp N, numAsync := 0, numInline := 0,
        numReleases := 0, guard := false } ∧
    maxTask f comp N W chunkSz pt =
      { resultIdx := maxElIdx f comp N, numAsync := 0, numInline := 0,
        numReleases := 0, guard := false } :=
  ⟨findEngine_serial p N W chunkSz pt h,
   findEngine_serial (fun i => !p i) N W chunkSz pt h,
   mmEngine_serial f comp _ (minElIdx f comp N) N W chunkSz pt h,
   mmEngine_serial f (fun x y => comp y x) _ (maxElIdx f comp N) N W chunkSz pt h⟩

/-- Witness for C7 on the empty range with four workers. -/
theorem C7_serial_fallback_witness :
    ((4 : Nat) ≤ 1 ∨ (0 : Nat) ≤ 0) ∧
    minTask sampleF natLt 0 4 0 PType.pstatic =
      { resultIdx := minElIdx sampleF natLt 0, numAsync := 0, numInline := 0,
        numReleases := 0, guard := false } :=
  ⟨Or.inr (Nat.le_refl 0),
   (C7_serial_fallback (fun i => i == 2) sampleF natLt 0 4 0 PType.pstatic
      (Or.inr (Nat.le_refl 0))).2.2.1⟩

/-- C6 counterexample: `min_element` with the static partitioner at
`N = 2`, `W = 2`, `chunk_size = 1` takes the parallel path (`W > 1`,
`N > chunk_size`), clamps `W` to `min(W, N) = 2`, yet the spawn loop creates
no `silent_async` sub-task at all (one single inline task), refuting
"exactly `W - 1` sub-tasks via `silent_async`" for the min/max static
path. -/
theorem C6_spawn_counts_counterexample :
    ¬ ((2 : Nat) ≤ 1 ∨ (2 : Nat) ≤ 1) ∧
    (minTask (fun i => [10, 20].getD i 0) natLt 2 2 1 PType.pstatic).numAsync = 0 ∧
    (minTask (fun i => [10, 20].getD i 0) natLt 2 2 1 PType.pstatic).numInline = 1 ∧
    (minTask (fun i => [10, 20].getD i 0) natLt 2 2 1 PType.pstatic).numAsync ≠
      min 2 2 - 1 := by
  decide

/-- C6 (amended): on the parallel path, after clamping `W` to `min(W, N)`,
`find_if` and `find_if_not` (both partitioners) and `min_element` /
`max_element` with the dynamic partitioner submit exactly `W - 1` sub-tasks
via `silent_async` and run exactly one task body inline; for `min_element` /
`max_element` with the static partitioner the spawn loop may stop after
fewer tasks (at most `W` in total, at most one of them — the last — inline,
and exactly one inline whenever `N ≥ 2`); in every case each executed task
body releases exactly one share of the shared termination state. -/
theorem C6_spawn_counts_amended (p : Nat → Bool) {α : Type} (f : Nat → α)
    (comp : α → α → Bool) (N W chunkSz : Nat) (h : ¬ (W ≤ 1 ∨ N ≤ chunkSz)) :
    ((findIfTask p N W chunkSz PType.pstatic).numAsync = min W N - 1 ∧
     (findIfTask p N W chunkSz PType.pstatic).numInline = 1 ∧
     (findIfTask p N W chunkSz PType.pstatic).numReleases =
       (findIfTask p N W chunkSz PType.pstatic).numAsync +
         (findIfTask p N W chunkSz PType.pstatic).numInline) ∧
    ((findIfTask p N W chunkSz PType.pdynamic).numAsync = min W N - 1 ∧
     (findIfTask p N W chunkSz PType.pdynamic).numInline = 1 ∧
     (findIfTask p N W chunkSz PType.pdynamic).numReleases =
       (findIfTask p N W chunkSz PType.pdynamic).numAsync +
         (findIfTask p N W chunkSz PType.pdynamic).numInline) ∧
    ((findIfNotTask p N W chunkSz PType.pstatic).numAsync = min W N - 1 ∧
     (findIfNotTask p N W chunkSz PType.pstatic).numInline = 1) ∧
    ((findIfNotTask p N W chunkSz PType.pdynamic).numAsync = min W N - 1 ∧
     (findIfNotTask p N W chunkSz PType.pdynamic).numInline = 1) ∧
    ((minTask f comp N W chunkSz PType.pdynamic).numAsync = min W N - 1 ∧
     (minTask f comp N W chunkSz PType.pdynamic).numInline = 1 ∧
     (minTask f comp N W chunkSz PType.pdynamic).numReleases =
       (minTask f comp N W chunkSz PType.pdynamic).numAsync +
         (minTask f comp N W chunkSz PType.pdynamic).numInline) ∧
    ((maxTask f comp N W chunkSz PType.pdynamic).numAsync = min W N - 1 ∧
     (maxTask f comp N W chunkSz PType.pdynamic).numInline = 1) ∧
    ((minTask f comp N W chunkSz PType.pstatic).numAsync +
       (minTask f comp N W chunkSz PType.pstatic).numInline ≤ min W N ∧
     (minTask f comp N W chunkSz PType.pstatic).numInline ≤ 1 ∧
     (2 ≤ N → (minTask f comp N W chunkSz PType.pstatic).numInline = 1) ∧
     (minTask f comp N W chunkSz PType.pstatic).numReleases =
       (minTask f comp N W chunkSz PType.pstatic).numAsync +
         (minTask f comp N W chunkSz PType.pstatic).numInline) ∧
    ((maxTask f comp N W chunkSz PType.pstatic).numAsync +
       (maxTask f comp N W chunkSz PType.pstatic).numInline ≤ min W N ∧
     (maxTask f comp N W chunkSz PType.pstatic).numInline ≤ 1 ∧
     (2 ≤ N → (maxTask f comp N W chunkSz PType.pstatic).numInline = 1) ∧
     (maxTask f comp N W chunkSz PType.pstatic).numReleases =
       (maxTask f comp N W chunkSz PType.pstatic).numAsync +
         (maxTask f comp N W chunkSz PType.pstatic).numInline) := by
  have hfs := findEngine_counts_static p N W chunkSz h
  have hfd := findEngine_counts_dynamic p N W chunkSz h
  have hns := findEngine_counts_static (fun i => !p i) N W chunkSz h
  have hnd := findEngine_counts_dynamic (fun i => !p i) N W chunkSz h
  have hmind := mmEngine_counts_dynamic f comp
    (fun a b => if comp (f a) (f b) then a else b) (minElIdx f comp N) N W chunkSz h
  have hmaxd := mmEngine_counts_dynamic f (fun x y => comp y x)
    (fun a b => if comp (f a) (f b) then b else a) (maxElIdx f comp N) N W chunkSz h
  have hmins := mmEngine_counts_static f comp
    (fun a b => if comp (f a) (f b) then a else b) (minElIdx f comp N) N W chunkSz h
  have hmaxs := mmEngine_counts_static f (fun x y => comp y x)
    (fun a b => if comp (f a) (f b) then b else a) (maxElIdx f comp N) N W chunkSz h
  exact ⟨⟨hfs.1, hfs.2.1, hfs.2.2⟩, ⟨hfd.1, hfd.2.1, hfd.2.2⟩, ⟨hns.1, hns.2.1⟩,
    ⟨hnd.1, hnd.2.1⟩, ⟨hmind.1, hmind.2.1, hmind.2.2⟩, ⟨hmaxd.1, hmaxd.2.1⟩,
    ⟨hmins.1, hmins.2.1, hmins.2.2.1, hmins.2.2.2⟩,
    ⟨hmaxs.1, hmaxs.2.1, hmaxs.2.2.1, hmaxs.2.2.2⟩⟩

/-- Witness for the amended C6 at `N = 9`, `W = 4`, `chunk_size = 1`. -/
theorem C6_spawn_counts_amended_witness :
    ¬ ((4 : Nat) ≤ 1 ∨ (9 : Nat) ≤ 1) ∧
    (findIfTask (fun i => i == 5) 9 4 1 PType.pstatic).numAsync = min 4 9 - 1 :=
  ⟨by decide,
   (C6_spawn_counts_amended (fun i => i == 5) sampleF natLt 9 4 1 (by decide)).1.1⟩

end Tf
